import Mathlib

/-!
# xorcat: repeating-key XOR over input streams

A shallow embedding of `src/xorcat.c` and a verification of its streaming
engine.

* Bytes (`unsigned char`) are natural numbers below 256.
* The key is the list of its bytes; a pointer into the key (`key_iter`) is its
  offset from `key`, and `key_end` is the offset `key.length`.
* `int` values are integers; the one conversion that can lose bits, the
  pointer difference `key_end - key_iter` stored in an `int`, is reduced to 32
  bits two's complement by `toInt32`.
* The operating system is a script: the results the successive `read` calls
  give and the results the successive `write` calls give. A `read` returns at
  most `sizeof(buffer)` bytes, a count that fits the `int` variable `res`.
* A loop that may run forever takes a fuel argument and reports `diverged`
  when the fuel is used up.
-/

namespace Xorcat

/-! ## Constants and machine arithmetic -/

/-- Default of the macro `BUF_SIZE` (line 31). -/
def BUF_SIZE : Nat := 4096

/-- Value of `EXIT_SUCCESS`. -/
def EXIT_SUCCESS : Int := 0

/-- Value of `EXIT_FAILURE`. -/
def EXIT_FAILURE : Int := 1

/-- Conversion of an integer to a 32-bit two's complement `int`
(reduction modulo `2^32` into `[-2^31, 2^31)`). -/
def toInt32 (x : Int) : Int := (x + 2147483648) % 4294967296 - 2147483648

/-- The statement `buffer[i] ^= k` on `unsigned char` operands. -/
def xorByte (b k : Nat) : Nat := (b ^^^ k) % 256

/-! ## Outcomes and the environment -/

/-- How the execution of a piece of code ends. -/
inductive Outcome (α : Type) where
  /-- Control reaches the end of the code with a value. -/
  | ok (a : α)
  /-- An `assert` failed. -/
  | abort
  /-- A buffer access outside the bytes of the block. -/
  | fault
  /-- The fuel of a loop ran out. -/
  | diverged
  deriving DecidableEq, Repr

/-- Apply a function to the value of a finished execution. -/
def Outcome.map {α β : Type} (f : α → β) : Outcome α → Outcome β
  | .ok a => .ok (f a)
  | .abort => .abort
  | .fault => .fault
  | .diverged => .diverged

/-- Result of one `read(data_fd, buffer, sizeof(buffer))` call. -/
inductive ReadRes where
  /-- The call stored these bytes in the buffer and returned their number
  (zero bytes: end of input). The number never exceeds `sizeof(buffer)`. -/
  | data (bytes : List Nat)
  /-- The call returned a negative value. -/
  | error
  deriving DecidableEq, Repr

/-- Result of one `write(STDOUT_FILENO, buffer, res)` call. -/
inductive WriteRes where
  /-- The call returned `n`: the sink took the first `n` bytes of the buffer. -/
  | accepted (n : Nat)
  /-- The call returned `-1`. -/
  | error
  deriving DecidableEq, Repr

/-- What a call of `xorcat` did. -/
structure Run where
  /-- The value returned. -/
  rc : Int
  /-- The value of `*key_iter_ptr` when the call returns. -/
  cursor : Nat
  /-- The bytes the output sink took, in order. -/
  out : List Nat
  /-- The number of `read` calls made. -/
  reads : Nat
  /-- The buffers handed to `write`, in order. -/
  requests : List (List Nat)
  /-- The results of `write` calls not used by this call. -/
  restWrites : List WriteRes
  deriving DecidableEq, Repr

/-! ## The function `xorcat` (lines 35-83) -/

/-- The chunk loop `for (; xor_idx < xor_end; xor_idx++)` (lines 59-62); the
first argument is the number of iterations left, `xor_end - xor_idx`. -/
def xorChunk (key : List Nat) : Nat → List Nat → Nat → Nat → Outcome (List Nat × Nat × Nat)
  | 0, buffer, xor_idx, key_iter => .ok (buffer, xor_idx, key_iter)
  | n + 1, buffer, xor_idx, key_iter =>
    if key_iter < key.length then
      if xor_idx < buffer.length then
        xorChunk key n
          (buffer.set xor_idx (xorByte (buffer.getD xor_idx 0) (key.getD key_iter 0)))
          (xor_idx + 1) (key_iter + 1)
      else .fault
    else .abort

/-- The loop `do { ... } while (xor_idx < res)` (lines 50-67) on a block of
`res` bytes, started at the top of an iteration. The result is the buffer,
`xor_idx` and `key_iter` when the loop is left. -/
def chunkLoop (key : List Nat) (res : Nat) : Nat → List Nat → Nat → Nat → Outcome (List Nat × Nat × Nat)
  | 0, _, _, _ => .diverged
  | fuel + 1, buffer, xor_idx, key_iter =>
    let remaining_keylen : Int := toInt32 ((key.length : Int) - (key_iter : Int))
    let remaining_bytes : Int := (res : Int) - (xor_idx : Int)
    let xor_bytes : Int := if remaining_bytes < remaining_keylen then remaining_bytes else remaining_keylen
    let xor_end : Int := (xor_idx : Int) + xor_bytes
    if xor_end ≤ (res : Int) then
      match xorChunk key (xor_end - (xor_idx : Int)).toNat buffer xor_idx key_iter with
      | .ok (buffer1, xor_idx1, key_iter1) =>
        let key_iter2 := if key_iter1 = key.length then 0 else key_iter1
        if xor_idx1 < res then chunkLoop key res fuel buffer1 xor_idx1 key_iter2
        else .ok (buffer1, xor_idx1, key_iter2)
      | .abort => .abort
      | .fault => .fault
      | .diverged => .diverged
    else .abort

/-- Put the bytes and the request of one block in front of the rest of a run. -/
def Run.after (taken request : List Nat) (r : Run) : Run :=
  { r with out := taken ++ r.out, reads := r.reads + 1, requests := request :: r.requests }

/-- The block loop of `xorcat` (lines 47-82). `start` is the value of
`*key_iter_ptr` at entry, left in place when the call fails; `key_iter` is
the local copy. A script of reads that is used up reads as end of input; a
script of writes that is used up takes every block in full. -/
def xorcatLoop (key : List Nat) (start fuel : Nat) : List ReadRes → List WriteRes → Nat → Outcome Run
  | [], ws, key_iter =>
    .ok { rc := EXIT_SUCCESS, cursor := key_iter, out := [], reads := 1, requests := [], restWrites := ws }
  | .error :: _, ws, _ =>
    .ok { rc := EXIT_FAILURE, cursor := start, out := [], reads := 1, requests := [], restWrites := ws }
  | .data block :: rs, ws, key_iter =>
    let res := block.length
    if res = 0 then
      .ok { rc := EXIT_SUCCESS, cursor := key_iter, out := [], reads := 1, requests := [], restWrites := ws }
    else
      match chunkLoop key res fuel block 0 key_iter with
      | .ok (buffer, xor_idx, key_iter1) =>
        if xor_idx = res then
          match ws with
          | .error :: ws1 =>
            .ok { rc := EXIT_FAILURE, cursor := start, out := [], reads := 1, requests := [buffer],
                  restWrites := ws1 }
          | .accepted n :: ws1 =>
            (xorcatLoop key start fuel rs ws1 key_iter1).map (Run.after (buffer.take n) buffer)
          | [] =>
            (xorcatLoop key start fuel rs [] key_iter1).map (Run.after buffer buffer)
        else .abort
      | .abort => .abort
      | .fault => .fault
      | .diverged => .diverged

/-- The function `xorcat` (lines 35-83): the asserts on the key and on
`*key_iter_ptr` at entry, then the block loop. `cursor` is `*key_iter_ptr`,
`fuel` bounds the iterations of each do-while loop. -/
def xorcat (key : List Nat) (cursor fuel : Nat) (rs : List ReadRes) (ws : List WriteRes) : Outcome Run :=
  if 0 < key.length ∧ cursor < key.length then xorcatLoop key cursor fuel rs ws cursor
  else .abort

/-! ## The input processing of `main` (lines 127-148) -/

/-- What the input processing of `main` did. -/
structure DriverRun where
  /-- The value of `rc` that `main` returns. -/
  rc : Int
  /-- The bytes the output sink took, in order. -/
  out : List Nat
  /-- For each `xorcat` call made, the value of `key_iter` before and after it. -/
  calls : List (Nat × Nat)
  deriving DecidableEq, Repr

/-- Put the bytes and the cursors of one `xorcat` call in front of the rest. -/
def DriverRun.after (taken : List Nat) (call : Nat × Nat) (d : DriverRun) : DriverRun :=
  { d with out := taken ++ d.out, calls := call :: d.calls }

/-- The loop over the data files (lines 134-147). A file is `none` when
`open` fails and the script of its reads otherwise. `rc` is the variable
`rc`, which `main` leaves unset until the first call. -/
def fileLoop (key : List Nat) (fuel : Nat) :
    List (Option (List ReadRes)) → List WriteRes → Nat → Int → Outcome DriverRun
  | [], _, _, rc => .ok { rc := rc, out := [], calls := [] }
  | none :: _, _, _, _ => .ok { rc := EXIT_FAILURE, out := [], calls := [] }
  | some rs :: fs, ws, key_iter, _ =>
    match xorcat key key_iter fuel rs ws with
    | .ok run =>
      if run.rc ≠ EXIT_SUCCESS then
        .ok { rc := run.rc, out := run.out, calls := [(key_iter, run.cursor)] }
      else
        (fileLoop key fuel fs run.restWrites run.cursor run.rc).map
          (DriverRun.after run.out (key_iter, run.cursor))
    | .abort => .abort
    | .fault => .fault
    | .diverged => .diverged

/-- The inputs named on the command line: standard input when no data file
is given (`argc < 3`), otherwise one or more data files. -/
inductive Inputs where
  /-- No data file: the script of reads of standard input. -/
  | stdin (rs : List ReadRes)
  /-- The first data file and the ones after it. -/
  | files (first : Option (List ReadRes)) (more : List (Option (List ReadRes)))

/-- Lines 127-148 of `main`: `key_iter` starts at `key` and is passed to
every call. -/
def processInputs (key : List Nat) (fuel : Nat) (inputs : Inputs) (ws : List WriteRes) :
    Outcome DriverRun :=
  match inputs with
  | .stdin rs =>
    (xorcat key 0 fuel rs ws).map
      (fun run => { rc := run.rc, out := run.out, calls := [(0, run.cursor)] })
  | .files first more => fileLoop key fuel (first :: more) ws 0 EXIT_SUCCESS

/-! ## Reference functions -/

/-- The bytes of a message XORed with the key repeated without end, the first
byte taking the key byte at position `p` modulo the key length. -/
def xorFrom (key : List Nat) : Nat → List Nat → List Nat
  | _, [] => []
  | p, b :: bs => xorByte b (key.getD (p % key.length) 0) :: xorFrom key (p + 1) bs

/-- The per-byte loop of the specification:
`buffer[j] ^= K[cursor]; cursor = (cursor + 1) % L` for each byte in turn.
The result is the buffer and the cursor. -/
def naiveLoop (key : List Nat) : List Nat → Nat → List Nat × Nat
  | [], cursor => ([], cursor)
  | b :: bs, cursor =>
    let r := naiveLoop key bs ((cursor + 1) % key.length)
    (xorByte b (key.getD cursor 0) :: r.1, r.2)

/-- The bytes the reads of a script deliver before the first read that
returns zero bytes or fails. -/
def delivered : List ReadRes → List Nat
  | [] => []
  | .error :: _ => []
  | .data block :: rs => if block.length = 0 then [] else block ++ delivered rs

/-- Every write of the script that answers one of the blocks takes the block
in full. -/
def fullWrites : List WriteRes → List (List Nat) → Bool
  | [], _ => true
  | _ :: _, [] => true
  | .accepted n :: ws, block :: blocks => decide (block.length ≤ n) && fullWrites ws blocks
  | .error :: _, _ :: _ => false

/-- The script of reads that delivers the given blocks and then the end of
input. -/
def readsOf (blocks : List (List Nat)) : List ReadRes :=
  blocks.map ReadRes.data ++ [ReadRes.data []]

/-- The blocks of a message XORed one after the other, the first byte of the
first block taking the key byte at position `p` modulo the key length. -/
def xorBlocks (key : List Nat) : Nat → List (List Nat) → List (List Nat)
  | _, [] => []
  | p, block :: blocks => xorFrom key p block :: xorBlocks key (p + block.length) blocks

/-- A key of `2^31` zero bytes (a key file of 2 GiB). -/
def hugeKey : List Nat := List.replicate 2147483648 0

/-! ## One iteration of the do-while loop -/

/-- The chunk length `xor_bytes` of lines 51-55, for a key of `keylen` bytes
with `key_iter` at the given offset, in a block of `res` bytes at the index
`xor_idx`. -/
def xor_bytes (keylen key_iter res xor_idx : Nat) : Int :=
  let remaining_keylen : Int := toInt32 ((keylen : Int) - (key_iter : Int))
  let remaining_bytes : Int := (res : Int) - (xor_idx : Int)
  if remaining_bytes < remaining_keylen then remaining_bytes else remaining_keylen

/-- One iteration of the do-while loop (lines 51-66): the buffer, `xor_idx`
and `key_iter` at its end. -/
def chunkStep (key : List Nat) (res : Nat) (buffer : List Nat) (xor_idx key_iter : Nat) :
    Outcome (List Nat × Nat × Nat) :=
  let xor_end : Int := (xor_idx : Int) + xor_bytes key.length key_iter res xor_idx
  if xor_end ≤ (res : Int) then
    match xorChunk key (xor_end - (xor_idx : Int)).toNat buffer xor_idx key_iter with
    | .ok (buffer1, xor_idx1, key_iter1) =>
      .ok (buffer1, xor_idx1, if key_iter1 = key.length then 0 else key_iter1)
    | .abort => .abort
    | .fault => .fault
    | .diverged => .diverged
  else .abort

/-- The test `while (xor_idx < res)` after an iteration: go on with the loop
or leave it. -/
def chunkNext (key : List Nat) (res fuel : Nat) :
    Outcome (List Nat × Nat × Nat) → Outcome (List Nat × Nat × Nat)
  | .ok (buffer, xor_idx, key_iter) =>
    if xor_idx < res then chunkLoop key res fuel buffer xor_idx key_iter
    else .ok (buffer, xor_idx, key_iter)
  | .abort => .abort
  | .fault => .fault
  | .diverged => .diverged

/-! ## The function `main` (lines 85-153) -/

/-- What the system calls of lines 100-123 give for the key file. -/
structure KeyFile where
  /-- Whether `fstat` succeeds. -/
  fstatOk : Bool
  /-- The bytes of the file; `st_size` is their number. -/
  bytes : List Nat
  /-- Whether `mmap` succeeds. -/
  mmapOk : Bool

/-- The environment of a run of `main`. -/
structure Env where
  /-- The key file behind a path, `none` when `open` fails. -/
  openKey : String → Option KeyFile
  /-- The script of reads of the data file behind a path, `none` when `open`
  fails. -/
  openData : String → Option (List ReadRes)
  /-- The script of reads of standard input. -/
  stdin : List ReadRes
  /-- The script of writes to standard output. -/
  writes : List WriteRes

/-- What a run of `main` did. -/
structure MainRun where
  /-- The exit status. -/
  rc : Int
  /-- Whether the help text was printed. -/
  usage : Bool
  /-- The bytes the calls of `xorcat` got written to standard output. -/
  out : List Nat
  /-- For each `xorcat` call made, the value of `key_iter` before and after it. -/
  calls : List (Nat × Nat)
  deriving DecidableEq, Repr

/-- A run of `main` that fails before any input is processed. -/
def MainRun.failed : MainRun := { rc := EXIT_FAILURE, usage := false, out := [], calls := [] }

/-- The inputs of lines 130-148: standard input when `argv` ends after the
key path, the data files behind the further arguments otherwise. -/
def inputsOf (env : Env) : List String → Inputs
  | [] => .stdin env.stdin
  | path :: paths => .files (env.openData path) (paths.map env.openData)

/-- The function `main`, applied to `argv` (the program name first). -/
def main (fuel : Nat) (env : Env) : List String → Outcome MainRun
  | [] => .ok MainRun.failed
  | [_] => .ok MainRun.failed
  | _ :: keyPath :: dataPaths =>
    if keyPath = "-h" ∨ keyPath = "--help" then
      .ok { rc := EXIT_SUCCESS, usage := true, out := [], calls := [] }
    else
      match env.openKey keyPath with
      | none => .ok MainRun.failed
      | some keyFile =>
        if keyFile.fstatOk = false then .ok MainRun.failed
        else if keyFile.bytes.length = 0 then .ok MainRun.failed
        else if keyFile.mmapOk = false then .ok MainRun.failed
        else
          (processInputs keyFile.bytes fuel (inputsOf env dataPaths) env.writes).map
            (fun d => { rc := d.rc, usage := false, out := d.out, calls := d.calls })

/-! ## Reference functions for runs over several files -/

/-- The bytes of a file delivered as blocks, and of several files one after
the other. -/
def contents (files : List (List (List Nat))) : List Nat :=
  (files.map List.flatten).flatten

/-- The cursor before and after the call for each file, when the first file
starts at position `p` of the key repeated without end. -/
def callCursors (keylen : Nat) : Nat → List (List (List Nat)) → List (Nat × Nat)
  | _, [] => []
  | p, file :: files =>
    (p % keylen, (p + file.flatten.length) % keylen)
      :: callCursors keylen (p + file.flatten.length) files

/-- A key of `2^32 + 1` zero bytes (a key file of 4 GiB and one byte). -/
def longKey : List Nat := 0 :: List.replicate 4294967296 0

/-! ## What the output sink holds -/

/-- The bytes the sink takes from a sequence of write requests, according to
the script of writes; nothing is taken from a failed write on. -/
def sinkTakes : List WriteRes → List (List Nat) → List Nat
  | _, [] => []
  | [], request :: requests => request ++ sinkTakes [] requests
  | .accepted n :: ws, request :: requests => request.take n ++ sinkTakes ws requests
  | .error :: _, _ :: _ => []

/-- The bytes the output sink has taken when the block loop of `xorcat`
(lines 47-78) returns, or when a do-while loop has used up its fuel: the
writes of the blocks finished before. -/
def emittedLoop (key : List Nat) (fuel : Nat) : List ReadRes → List WriteRes → Nat → List Nat
  | [], _, _ => []
  | .error :: _, _, _ => []
  | .data block :: rs, ws, key_iter =>
    let res := block.length
    if res = 0 then []
    else
      match chunkLoop key res fuel block 0 key_iter with
      | .ok (buffer, xor_idx, key_iter1) =>
        if xor_idx = res then
          match ws with
          | .error :: _ => []
          | .accepted n :: ws1 => buffer.take n ++ emittedLoop key fuel rs ws1 key_iter1
          | [] => buffer ++ emittedLoop key fuel rs [] key_iter1
        else []
      | .abort => []
      | .fault => []
      | .diverged => []

/-- The bytes the output sink has taken when a call of `xorcat` returns, or
when one of its do-while loops has used up its fuel. -/
def emitted (key : List Nat) (cursor fuel : Nat) (rs : List ReadRes) (ws : List WriteRes) :
    List Nat :=
  if 0 < key.length ∧ cursor < key.length then emittedLoop key fuel rs ws cursor else []

/-! ## Machine arithmetic -/

theorem toInt32_of_small (x : Int) (h0 : 0 ≤ x) (h1 : x < 2147483648) : toInt32 x = x := by
  unfold toInt32
  omega

theorem toInt32_pos_le (x : Int) (h0 : 0 ≤ x) (h : 0 < toInt32 x) : toInt32 x ≤ x := by
  unfold toInt32 at *
  omega

theorem toInt32_nonpos_large (x : Int) (h0 : 0 < x) (h : toInt32 x ≤ 0) : 2147483648 ≤ x := by
  unfold toInt32 at *
  omega

/-! ## The reference function -/

theorem xorFrom_length (key : List Nat) (p : Nat) (M : List Nat) :
    (xorFrom key p M).length = M.length := by
  induction M generalizing p with
  | nil => rfl
  | cons b bs ih => simp [xorFrom, ih]

theorem xorFrom_append (key : List Nat) (p : Nat) (A B : List Nat) :
    xorFrom key p (A ++ B) = xorFrom key p A ++ xorFrom key (p + A.length) B := by
  induction A generalizing p with
  | nil => simp [xorFrom]
  | cons a as ih =>
    have h : p + 1 + as.length = p + (as.length + 1) := by omega
    show xorFrom key p (a :: (as ++ B)) = _
    simp only [xorFrom, ih, List.length_cons, List.cons_append, h]

theorem xorFrom_congr (key : List Nat) (p q : Nat) (M : List Nat)
    (h : p % key.length = q % key.length) : xorFrom key p M = xorFrom key q M := by
  induction M generalizing p q with
  | nil => rfl
  | cons b bs ih =>
    simp only [xorFrom, h]
    rw [ih (p + 1) (q + 1) (by rw [Nat.add_mod, h, ← Nat.add_mod])]

theorem xorFrom_mod (key : List Nat) (p : Nat) (M : List Nat) :
    xorFrom key (p % key.length) M = xorFrom key p M :=
  xorFrom_congr key _ _ M (Nat.mod_mod _ _)

theorem xorFrom_getElem? (key : List Nat) (p : Nat) (M : List Nat) (i : Nat) :
    (xorFrom key p M)[i]? = M[i]?.map (fun b => xorByte b (key.getD ((p + i) % key.length) 0)) := by
  induction M generalizing p i with
  | nil => simp [xorFrom]
  | cons b bs ih =>
    cases i with
    | zero => simp [xorFrom]
    | succ j =>
      simp only [xorFrom, List.getElem?_cons_succ, ih]
      have : p + 1 + j = p + (j + 1) := by omega
      rw [this]

theorem naiveLoop_eq (key : List Nat) (hL : 0 < key.length) (M : List Nat) (c : Nat)
    (hc : c < key.length) :
    naiveLoop key M c = (xorFrom key c M, (c + M.length) % key.length) := by
  induction M generalizing c with
  | nil => simp [naiveLoop, xorFrom, Nat.mod_eq_of_lt hc]
  | cons b bs ih =>
    simp only [naiveLoop, xorFrom, List.length_cons]
    rw [ih _ (Nat.mod_lt _ hL), xorFrom_mod, Nat.mod_eq_of_lt hc]
    have : (c + 1) % key.length + bs.length ≡ c + (bs.length + 1) [MOD key.length] := by
      have h1 : (c + 1) % key.length ≡ c + 1 [MOD key.length] := Nat.mod_modEq _ _
      have := Nat.ModEq.add_right bs.length h1
      rwa [show c + 1 + bs.length = c + (bs.length + 1) by omega] at this
    rw [this]

/-! ## The chunk loops -/

theorem xorChunk_spec (key : List Nat) (n : Nat) (P S : List Nat) (ki : Nat)
    (hn : n ≤ S.length) (hk : ki + n ≤ key.length) :
    xorChunk key n (P ++ S) P.length ki
      = .ok (P ++ xorFrom key ki (S.take n) ++ S.drop n, P.length + n, ki + n) := by
  induction n generalizing P S ki with
  | zero => simp [xorChunk, xorFrom]
  | succ n ih =>
    cases S with
    | nil => simp at hn
    | cons s S1 =>
      have hki : ki < key.length := by omega
      have hlen : P.length < (P ++ s :: S1).length := by simp
      have hn1 : n ≤ S1.length := by simpa using hn
      have hget : (P ++ s :: S1).getD P.length 0 = s := by
        rw [List.getD_eq_getElem?_getD, List.getElem?_append_right (le_refl _)]
        simp
      have hset : (P ++ s :: S1).set P.length (xorByte s (key.getD ki 0))
          = (P ++ [xorByte s (key.getD ki 0)]) ++ S1 := by
        simp [List.set_append]
      simp only [xorChunk, if_pos hki, if_pos hlen, hget, hset]
      have h := ih (P ++ [xorByte s (key.getD ki 0)]) S1 (ki + 1) hn1 (by omega)
      simp only [List.length_append, List.length_singleton] at h
      rw [h]
      simp [xorFrom, Nat.mod_eq_of_lt hki, Nat.add_assoc, Nat.add_comm 1 n]

theorem wrap_eq_mod (L k : Nat) (hL : 0 < L) (hk : k ≤ L) :
    (if k = L then 0 else k) = k % L := by
  split_ifs with h
  · subst h; simp
  · exact (Nat.mod_eq_of_lt (by omega)).symm

theorem chunkLoop_spec (key : List Nat) (res fuel : Nat) (P S : List Nat) (ki : Nat)
    (hki : ki < key.length) (hS : S ≠ []) (hres : res = P.length + S.length) :
    chunkLoop key res fuel (P ++ S) P.length ki
        = .ok (P ++ xorFrom key ki S, res, (ki + S.length) % key.length)
      ∨ (chunkLoop key res fuel (P ++ S) P.length ki = .diverged
          ∧ ¬ (key.length < 2147483648 ∧ S.length ≤ fuel)) := by
  induction fuel generalizing P S ki with
  | zero =>
    right
    refine ⟨rfl, ?_⟩
    have : 0 < S.length := List.length_pos.mpr hS
    omega
  | succ fuel ih =>
    have hSpos : 0 < S.length := List.length_pos.mpr hS
    have hL : 0 < key.length := by omega
    -- the chunk length computed by the code
    obtain ⟨n, hn_def, hassert, hn_le, hn_key, hn_cases⟩ :
        ∃ n : Nat,
          ((P.length : Int) + (if ((res : Int) - (P.length : Int)) < toInt32 ((key.length : Int) - (ki : Int))
              then ((res : Int) - (P.length : Int)) else toInt32 ((key.length : Int) - (ki : Int)))
              - (P.length : Int)).toNat = n
          ∧ (P.length : Int) + (if ((res : Int) - (P.length : Int)) < toInt32 ((key.length : Int) - (ki : Int))
              then ((res : Int) - (P.length : Int)) else toInt32 ((key.length : Int) - (ki : Int)))
              ≤ (res : Int)
          ∧ n ≤ S.length ∧ ki + n ≤ key.length
          ∧ ((n = 0 ∧ ¬ key.length < 2147483648) ∨ 0 < n) := by
      refine ⟨_, rfl, ?_⟩
      have hx0 : (0 : Int) < (key.length : Int) - (ki : Int) := by omega
      have h1 := toInt32_pos_le _ (le_of_lt hx0)
      have h2 := toInt32_nonpos_large _ hx0
      have h3 := toInt32_of_small _ (le_of_lt hx0)
      generalize toInt32 ((key.length : Int) - (ki : Int)) = t at *
      split_ifs with hlt <;> omega
    have hwrap := wrap_eq_mod key.length (ki + n) hL hn_key
    have hstep : chunkLoop key res (fuel + 1) (P ++ S) P.length ki
        = if P.length + n < res then
            chunkLoop key res fuel (P ++ xorFrom key ki (S.take n) ++ S.drop n) (P.length + n)
              ((ki + n) % key.length)
          else .ok (P ++ xorFrom key ki (S.take n) ++ S.drop n, P.length + n, (ki + n) % key.length) := by
      simp only [chunkLoop]
      rw [if_pos hassert, hn_def, xorChunk_spec key n P S ki hn_le hn_key]
      simp only [hwrap]
    rw [hstep]
    by_cases hlt : n < S.length
    · rw [if_pos (by omega)]
      have hlenP : (P ++ xorFrom key ki (S.take n)).length = P.length + n := by
        simp [xorFrom_length, Nat.min_eq_left hn_le]
      have hdrop : S.drop n ≠ [] := by
        intro h
        have := congrArg List.length h
        simp at this
        omega
      have hih := ih (P ++ xorFrom key ki (S.take n)) (S.drop n) ((ki + n) % key.length)
        (Nat.mod_lt _ hL) hdrop (by simp [xorFrom_length, Nat.min_eq_left hn_le]; omega)
      rw [hlenP] at hih
      have hjoin : xorFrom key ki (S.take n) ++ xorFrom key ((ki + n) % key.length) (S.drop n)
          = xorFrom key ki S := by
        conv_rhs => rw [← List.take_append_drop n S]
        rw [xorFrom_append, xorFrom_mod]
        simp [Nat.min_eq_left hn_le]
      have hcur : ((ki + n) % key.length + (S.drop n).length) % key.length
          = (ki + S.length) % key.length := by
        rw [List.length_drop, Nat.add_mod, Nat.mod_mod, ← Nat.add_mod]
        congr 1
        omega
      rcases hih with h | ⟨h, hnot⟩
      · left
        rw [h, List.append_assoc, hjoin, hcur]
      · right
        refine ⟨h, ?_⟩
        rcases hn_cases with ⟨_, hbig⟩ | hpos
        · exact fun hh => hbig hh.1
        · intro hh
          apply hnot
          refine ⟨hh.1, ?_⟩
          rw [List.length_drop]
          omega
    · have hn_eq : n = S.length := by omega
      rw [if_neg (by omega)]
      left
      subst hn_eq
      simp [hres]

theorem chunkLoop_total (key : List Nat) (fuel : Nat) (block : List Nat) (ki : Nat)
    (hL32 : key.length < 2147483648) (hki : ki < key.length) (hb : block ≠ [])
    (hfuel : block.length ≤ fuel) :
    chunkLoop key block.length fuel block 0 ki
      = .ok (xorFrom key ki block, block.length, (ki + block.length) % key.length) := by
  have h := chunkLoop_spec key block.length fuel [] block ki hki hb (by simp)
  simp only [List.nil_append, List.length_nil] at h
  rcases h with h | ⟨_, hnot⟩
  · exact h
  · exact absurd ⟨hL32, hfuel⟩ hnot

theorem chunkLoop_stuck (key : List Nat) (res fuel : Nat) (buffer : List Nat) (idx ki : Nat)
    (hki : ki < key.length) (hidx : idx < res)
    (ht : toInt32 ((key.length : Int) - (ki : Int)) ≤ 0) :
    chunkLoop key res fuel buffer idx ki = .diverged := by
  induction fuel with
  | zero => rfl
  | succ fuel ih =>
    have hxb : (if ((res : Int) - (idx : Int)) < toInt32 ((key.length : Int) - (ki : Int))
        then ((res : Int) - (idx : Int)) else toInt32 ((key.length : Int) - (ki : Int)))
        = toInt32 ((key.length : Int) - (ki : Int)) := by
      rw [if_neg (by omega)]
    have hassert : (idx : Int) + toInt32 ((key.length : Int) - (ki : Int)) ≤ (res : Int) := by omega
    have hn : ((idx : Int) + toInt32 ((key.length : Int) - (ki : Int)) - (idx : Int)).toNat = 0 := by
      omega
    simp only [chunkLoop, hxb]
    rw [if_pos hassert, hn]
    have hk : ¬ ki = key.length := by omega
    simp only [xorChunk, hk, if_false, hidx, if_true]
    exact ih

/-! ## The block loop -/

theorem Outcome.map_map {α β γ : Type} (f : α → β) (g : β → γ) (o : Outcome α) :
    (o.map f).map g = o.map (fun a => g (f a)) := by
  cases o <;> rfl

theorem Outcome.map_eq_ok {α β : Type} (f : α → β) (o : Outcome α) (b : β)
    (h : o.map f = .ok b) : ∃ a, o = .ok a ∧ b = f a := by
  cases o with
  | ok a => exact ⟨a, rfl, by simpa [Outcome.map] using h.symm⟩
  | abort => simp [Outcome.map] at h
  | fault => simp [Outcome.map] at h
  | diverged => simp [Outcome.map] at h

/-- One block of the block loop, when its do-while loop ends. -/
theorem xorcatLoop_block (key : List Nat) (start fuel : Nat) (block : List Nat)
    (rs : List ReadRes) (ws : List WriteRes) (ki : Nat) (hb : block ≠ [])
    (hloop : chunkLoop key block.length fuel block 0 ki
      = .ok (xorFrom key ki block, block.length, (ki + block.length) % key.length)) :
    xorcatLoop key start fuel (.data block :: rs) ws ki =
      match ws with
      | .error :: ws1 =>
        .ok { rc := EXIT_FAILURE, cursor := start, out := [], reads := 1,
              requests := [xorFrom key ki block], restWrites := ws1 }
      | .accepted n :: ws1 =>
        (xorcatLoop key start fuel rs ws1 ((ki + block.length) % key.length)).map
          (Run.after ((xorFrom key ki block).take n) (xorFrom key ki block))
      | [] =>
        (xorcatLoop key start fuel rs [] ((ki + block.length) % key.length)).map
          (Run.after (xorFrom key ki block) (xorFrom key ki block)) := by
  have hne : block.length ≠ 0 := by
    intro h
    exact hb (List.length_eq_zero.mp h)
  rw [xorcatLoop]
  simp only [if_neg hne, hloop, if_true]

theorem xorcatLoop_stuck (key : List Nat) (start fuel : Nat) (block : List Nat)
    (rs : List ReadRes) (ws : List WriteRes) (ki : Nat) (hb : block ≠ [])
    (hki : ki < key.length) (ht : toInt32 ((key.length : Int) - (ki : Int)) ≤ 0) :
    xorcatLoop key start fuel (.data block :: rs) ws ki = .diverged := by
  have hne : block.length ≠ 0 := by
    intro h
    exact hb (List.length_eq_zero.mp h)
  rw [xorcatLoop]
  simp only [if_neg hne,
    chunkLoop_stuck key block.length fuel block 0 ki hki (Nat.pos_of_ne_zero hne) ht]

theorem xorcat_stuck (key : List Nat) (c fuel : Nat) (block : List Nat)
    (rs : List ReadRes) (ws : List WriteRes) (hb : block ≠ [])
    (hc : c < key.length) (ht : toInt32 ((key.length : Int) - (c : Int)) ≤ 0) :
    xorcat key c fuel (.data block :: rs) ws = .diverged := by
  unfold xorcat
  rw [if_pos ⟨by omega, hc⟩]
  exact xorcatLoop_stuck key c fuel block rs ws c hb hc ht

theorem Outcome.map_id_like (o : Outcome Run) :
    o.map (fun r => { r with out := [] ++ r.out, reads := r.reads + 0,
                             requests := [] ++ r.requests }) = o := by
  cases o <;> rfl

/-- The block loop over blocks that are all transformed and written in full. -/
theorem xorcatLoop_blocks (key : List Nat) (start fuel : Nat)
    (hL : 0 < key.length) (hL32 : key.length < 2147483648)
    (blocks : List (List Nat)) (tail : List ReadRes) (ws : List WriteRes) (p : Nat)
    (hb : ∀ b ∈ blocks, b ≠ [] ∧ b.length ≤ fuel) (hw : fullWrites ws blocks = true) :
    xorcatLoop key start fuel (blocks.map ReadRes.data ++ tail) ws (p % key.length)
      = (xorcatLoop key start fuel tail (ws.drop blocks.length)
          ((p + blocks.flatten.length) % key.length)).map
          (fun r => { r with out := xorFrom key p blocks.flatten ++ r.out,
                             reads := r.reads + blocks.length,
                             requests := xorBlocks key p blocks ++ r.requests }) := by
  induction blocks generalizing ws p with
  | nil =>
    simp only [List.map_nil, List.nil_append, List.flatten_nil, List.length_nil, Nat.add_zero,
      List.drop_zero, xorFrom, xorBlocks]
    exact (Outcome.map_id_like _).symm
  | cons b bs ih =>
    obtain ⟨hbne, hbfuel⟩ := hb b (List.mem_cons_self _ _)
    have hbs : ∀ x ∈ bs, x ≠ [] ∧ x.length ≤ fuel := fun x hx => hb x (List.mem_cons_of_mem _ hx)
    have hloop := chunkLoop_total key fuel b (p % key.length) hL32 (Nat.mod_lt _ hL) hbne hbfuel
    rw [xorFrom_mod, Nat.mod_add_mod] at hloop
    have hblock := xorcatLoop_block key start fuel b (bs.map ReadRes.data ++ tail) ws
      (p % key.length) hbne (by rw [xorFrom_mod, Nat.mod_add_mod]; exact hloop)
    rw [xorFrom_mod, Nat.mod_add_mod] at hblock
    have hlen : (p + (b :: bs).flatten.length) = p + b.length + bs.flatten.length := by
      simp [Nat.add_assoc]
    simp only [List.map_cons, List.cons_append]
    rw [hblock, hlen]
    cases ws with
    | nil =>
      simp only [List.drop_nil]
      rw [ih [] (p + b.length) hbs (by simp [fullWrites])]
      simp only [List.drop_nil, Outcome.map_map]
      congr 1
      funext r
      simp [Run.after, xorFrom_append, xorBlocks, Nat.add_assoc, Nat.add_comm 1]
    | cons w ws1 =>
      cases w with
      | error => simp [fullWrites] at hw
      | accepted n =>
        simp only [fullWrites, Bool.and_eq_true, decide_eq_true_eq] at hw
        have htake : (xorFrom key p b).take n = xorFrom key p b :=
          List.take_of_length_le (by rw [xorFrom_length]; exact hw.1)
        simp only [htake, List.length_cons, List.drop_succ_cons]
        rw [ih ws1 (p + b.length) hbs hw.2]
        simp only [Outcome.map_map]
        congr 1
        funext r
        simp [Run.after, xorFrom_append, xorBlocks, Nat.add_assoc, Nat.add_comm 1]

/-- The cursor a finished block loop leaves with the caller. -/
theorem xorcatLoop_cursor (key : List Nat) (start fuel : Nat) (rs : List ReadRes)
    (ws : List WriteRes) (ki : Nat) (run : Run) (hki : ki < key.length)
    (h : xorcatLoop key start fuel rs ws ki = .ok run) :
    (run.rc = EXIT_SUCCESS ∧ run.cursor = (ki + (delivered rs).length) % key.length)
      ∨ (run.rc = EXIT_FAILURE ∧ run.cursor = start) := by
  induction rs generalizing ws ki run with
  | nil =>
    simp only [xorcatLoop, Outcome.ok.injEq] at h
    subst h
    left
    simp [delivered, Nat.mod_eq_of_lt hki]
  | cons r rs ih =>
    cases r with
    | error =>
      simp only [xorcatLoop, Outcome.ok.injEq] at h
      subst h
      right
      exact ⟨rfl, rfl⟩
    | data block =>
      by_cases hb : block = []
      · subst hb
        simp only [xorcatLoop, List.length_nil, if_true, Outcome.ok.injEq] at h
        subst h
        left
        simp [delivered, Nat.mod_eq_of_lt hki]
      · have hL : 0 < key.length := by omega
        have hne : block.length ≠ 0 := fun h0 => hb (List.length_eq_zero.mp h0)
        have hspec := chunkLoop_spec key block.length fuel [] block ki hki hb (by simp)
        simp only [List.nil_append, List.length_nil] at hspec
        rcases hspec with hok | ⟨hdiv, _⟩
        · rw [xorcatLoop_block key start fuel block rs ws ki hb hok] at h
          have hcur : ∀ r1 : Run,
              ((r1.rc = EXIT_SUCCESS ∧ r1.cursor
                    = ((ki + block.length) % key.length + (delivered rs).length) % key.length)
                ∨ (r1.rc = EXIT_FAILURE ∧ r1.cursor = start)) →
              ∀ t q, ((Run.after t q r1).rc = EXIT_SUCCESS ∧ (Run.after t q r1).cursor
                    = (ki + (delivered (.data block :: rs)).length) % key.length)
                ∨ ((Run.after t q r1).rc = EXIT_FAILURE ∧ (Run.after t q r1).cursor = start) := by
            intro r1 h1 t q
            rcases h1 with ⟨h1, h2⟩ | h1
            · left
              refine ⟨h1, ?_⟩
              simp only [Run.after, delivered, if_neg hne, List.length_append, h2]
              rw [Nat.mod_add_mod, Nat.add_assoc]
            · right
              exact h1
          cases ws with
          | nil =>
            obtain ⟨r1, hr1, hrun⟩ := Outcome.map_eq_ok _ _ _ h
            subst hrun
            exact hcur r1 (ih [] _ r1 (Nat.mod_lt _ hL) hr1) _ _
          | cons w ws1 =>
            cases w with
            | error =>
              simp only [Outcome.ok.injEq] at h
              subst h
              right
              exact ⟨rfl, rfl⟩
            | accepted n =>
              obtain ⟨r1, hr1, hrun⟩ := Outcome.map_eq_ok _ _ _ h
              subst hrun
              exact hcur r1 (ih ws1 _ r1 (Nat.mod_lt _ hL) hr1) _ _
        · rw [xorcatLoop] at h
          simp only [if_neg hne, hdiv] at h
          exact absurd h (by simp)

/-! ## Whole calls -/

theorem xorByte_eq_xor (b k : Nat) (hb : b < 256) (hk : k < 256) : xorByte b k = b ^^^ k := by
  unfold xorByte
  exact Nat.mod_eq_of_lt (Nat.xor_lt_two_pow (n := 8) hb hk)

theorem xorByte_lt (b k : Nat) : xorByte b k < 256 := by
  unfold xorByte
  exact Nat.mod_lt _ (by decide)

theorem xorByte_xorByte (b k : Nat) (hb : b < 256) (hk : k < 256) :
    xorByte (xorByte b k) k = b := by
  rw [xorByte_eq_xor b k hb hk, xorByte_eq_xor _ k (Nat.xor_lt_two_pow (n := 8) hb hk) hk,
    Nat.xor_assoc, Nat.xor_self, Nat.xor_zero]

theorem getD_lt_of_all (key : List Nat) (hK : ∀ k ∈ key, k < 256) (i : Nat) :
    key.getD i 0 < 256 := by
  rw [List.getD_eq_getElem?_getD]
  cases h : key[i]? with
  | none => simp
  | some k => simpa using hK k (List.getElem?_mem h)

theorem xorFrom_involutive (key : List Nat) (hK : ∀ k ∈ key, k < 256) (p : Nat) (M : List Nat)
    (hM : ∀ b ∈ M, b < 256) : xorFrom key p (xorFrom key p M) = M := by
  induction M generalizing p with
  | nil => rfl
  | cons b bs ih =>
    simp only [xorFrom]
    rw [xorByte_xorByte b _ (hM b (List.mem_cons_self _ _)) (getD_lt_of_all key hK _),
      ih (p + 1) (fun x hx => hM x (List.mem_cons_of_mem _ hx))]

theorem xorFrom_index (key : List Nat) (p : Nat) (M : List Nat) (i : Nat) (hi : i < M.length) :
    (xorFrom key p M)[i]? = some (xorByte (M.getD i 0) (key.getD ((p + i) % key.length) 0)) := by
  rw [xorFrom_getElem?, List.getD_eq_getElem?_getD M, List.getElem?_eq_getElem hi]
  rfl

/-- A call whose reads deliver the given blocks first, all written in full. -/
theorem xorcat_blocks (key : List Nat) (c fuel : Nat)
    (hL32 : key.length < 2147483648) (hc : c < key.length)
    (blocks : List (List Nat)) (tail : List ReadRes) (ws : List WriteRes)
    (hb : ∀ b ∈ blocks, b ≠ [] ∧ b.length ≤ fuel) (hw : fullWrites ws blocks = true) :
    xorcat key c fuel (blocks.map ReadRes.data ++ tail) ws
      = (xorcatLoop key c fuel tail (ws.drop blocks.length)
          ((c + blocks.flatten.length) % key.length)).map
          (fun r => { r with out := xorFrom key c blocks.flatten ++ r.out,
                             reads := r.reads + blocks.length,
                             requests := xorBlocks key c blocks ++ r.requests }) := by
  have hL : 0 < key.length := by omega
  unfold xorcat
  rw [if_pos ⟨hL, hc⟩]
  have h := xorcatLoop_blocks key c fuel hL hL32 blocks tail ws c hb hw
  rwa [Nat.mod_eq_of_lt hc] at h

/-- A call whose reads deliver the given blocks and then the end of input. -/
theorem xorcat_readsOf (key : List Nat) (c fuel : Nat)
    (hL32 : key.length < 2147483648) (hc : c < key.length)
    (blocks : List (List Nat)) (ws : List WriteRes)
    (hb : ∀ b ∈ blocks, b ≠ [] ∧ b.length ≤ fuel) (hw : fullWrites ws blocks = true) :
    xorcat key c fuel (readsOf blocks) ws
      = .ok { rc := EXIT_SUCCESS, cursor := (c + blocks.flatten.length) % key.length,
              out := xorFrom key c blocks.flatten, reads := blocks.length + 1,
              requests := xorBlocks key c blocks, restWrites := ws.drop blocks.length } := by
  unfold readsOf
  rw [xorcat_blocks key c fuel hL32 hc blocks _ ws hb hw]
  simp [xorcatLoop, Outcome.map, Nat.add_comm 1]

/-- A call whose reads deliver the given blocks and then fail. -/
theorem xorcat_read_error (key : List Nat) (c fuel : Nat)
    (hL32 : key.length < 2147483648) (hc : c < key.length)
    (blocks : List (List Nat)) (rest : List ReadRes) (ws : List WriteRes)
    (hb : ∀ b ∈ blocks, b ≠ [] ∧ b.length ≤ fuel) (hw : fullWrites ws blocks = true) :
    xorcat key c fuel (blocks.map ReadRes.data ++ ReadRes.error :: rest) ws
      = .ok { rc := EXIT_FAILURE, cursor := c,
              out := xorFrom key c blocks.flatten, reads := blocks.length + 1,
              requests := xorBlocks key c blocks, restWrites := ws.drop blocks.length } := by
  rw [xorcat_blocks key c fuel hL32 hc blocks _ ws hb hw]
  simp [xorcatLoop, Outcome.map, Nat.add_comm 1]

/-- The cursor a finished call leaves with the caller. -/
theorem xorcat_cursor (key : List Nat) (c fuel : Nat) (rs : List ReadRes)
    (ws : List WriteRes) (run : Run) (h : xorcat key c fuel rs ws = .ok run) :
    c < key.length ∧
      ((run.rc = EXIT_SUCCESS ∧ run.cursor = (c + (delivered rs).length) % key.length)
        ∨ (run.rc = EXIT_FAILURE ∧ run.cursor = c)) := by
  unfold xorcat at h
  by_cases hpre : 0 < key.length ∧ c < key.length
  · rw [if_pos hpre] at h
    exact ⟨hpre.2, xorcatLoop_cursor key c fuel rs ws c run hpre.2 h⟩
  · rw [if_neg hpre] at h
    exact absurd h (by simp)

theorem xorcat_cursor_lt (key : List Nat) (c fuel : Nat) (rs : List ReadRes)
    (ws : List WriteRes) (run : Run) (h : xorcat key c fuel rs ws = .ok run) :
    run.cursor < key.length := by
  obtain ⟨hc, hcases⟩ := xorcat_cursor key c fuel rs ws run h
  rcases hcases with ⟨_, h2⟩ | ⟨_, h2⟩
  · rw [h2]
    exact Nat.mod_lt _ (by omega)
  · rw [h2]
    exact hc

/-- With a key shorter than `2^31` bytes and fuel for the longest block, the
block loop returns, whatever the reads and writes give. -/
theorem xorcatLoop_returns (key : List Nat) (start fuel : Nat) (rs : List ReadRes)
    (ws : List WriteRes) (ki : Nat) (hL32 : key.length < 2147483648) (hki : ki < key.length)
    (hfuel : ∀ b, ReadRes.data b ∈ rs → b.length ≤ fuel) :
    ∃ run, xorcatLoop key start fuel rs ws ki = .ok run := by
  induction rs generalizing ws ki with
  | nil => exact ⟨_, rfl⟩
  | cons r rs ih =>
    have hrest : ∀ b, ReadRes.data b ∈ rs → b.length ≤ fuel :=
      fun b hb => hfuel b (List.mem_cons_of_mem _ hb)
    cases r with
    | error => exact ⟨_, rfl⟩
    | data block =>
      by_cases hb : block = []
      · subst hb
        exact ⟨{ rc := EXIT_SUCCESS, cursor := ki, out := [], reads := 1, requests := [],
                 restWrites := ws }, by simp [xorcatLoop]⟩
      · have hL : 0 < key.length := by omega
        have hloop := chunkLoop_total key fuel block ki hL32 hki hb
          (hfuel block (List.mem_cons_self _ _))
        rw [xorcatLoop_block key start fuel block rs ws ki hb hloop]
        cases ws with
        | nil =>
          obtain ⟨r1, hr1⟩ := ih [] ((ki + block.length) % key.length) (Nat.mod_lt _ hL) hrest
          exact ⟨_, by simp only [hr1]; rfl⟩
        | cons w ws1 =>
          cases w with
          | error => exact ⟨_, rfl⟩
          | accepted n =>
            obtain ⟨r1, hr1⟩ := ih ws1 ((ki + block.length) % key.length) (Nat.mod_lt _ hL) hrest
            exact ⟨_, by simp only [hr1]; rfl⟩

/-- With a key shorter than `2^31` bytes and fuel for the longest block, a
call of `xorcat` returns, whatever the reads and writes give. -/
theorem xorcat_returns (key : List Nat) (c fuel : Nat) (rs : List ReadRes)
    (ws : List WriteRes) (hL32 : key.length < 2147483648) (hc : c < key.length)
    (hfuel : ∀ b, ReadRes.data b ∈ rs → b.length ≤ fuel) :
    ∃ run, xorcat key c fuel rs ws = .ok run := by
  unfold xorcat
  rw [if_pos ⟨by omega, hc⟩]
  exact xorcatLoop_returns key c fuel rs ws c hL32 hc hfuel

/-- Every call the file loop makes starts and ends with the cursor inside the key. -/
theorem fileLoop_calls (key : List Nat) (fuel : Nat) (fs : List (Option (List ReadRes)))
    (ws : List WriteRes) (ki : Nat) (rc : Int) (d : DriverRun)
    (h : fileLoop key fuel fs ws ki rc = .ok d) :
    ∀ p ∈ d.calls, p.1 < key.length ∧ p.2 < key.length := by
  induction fs generalizing ws ki rc d with
  | nil =>
    simp only [fileLoop, Outcome.ok.injEq] at h
    subst h
    simp
  | cons f fs ih =>
    cases f with
    | none =>
      simp only [fileLoop, Outcome.ok.injEq] at h
      subst h
      simp
    | some rs =>
      rw [fileLoop] at h
      cases hx : xorcat key ki fuel rs ws with
      | ok run =>
        have hki := (xorcat_cursor key ki fuel rs ws run hx).1
        have hcur := xorcat_cursor_lt key ki fuel rs ws run hx
        simp only [hx] at h
        by_cases hrc : run.rc = EXIT_SUCCESS
        · simp only [hrc, ne_eq, not_true_eq_false, if_false] at h
          obtain ⟨d1, hd1, hd⟩ := Outcome.map_eq_ok _ _ _ h
          subst hd
          intro p hp
          simp only [DriverRun.after, List.mem_cons] at hp
          rcases hp with rfl | hp
          · exact ⟨hki, hcur⟩
          · exact ih _ _ _ d1 hd1 p hp
        · simp only [ne_eq, hrc, not_false_eq_true, if_true, Outcome.ok.injEq] at h
          subst h
          intro p hp
          simp only [List.mem_singleton] at hp
          subst hp
          exact ⟨hki, hcur⟩
      | abort => simp [hx] at h
      | fault => simp [hx] at h
      | diverged => simp [hx] at h

/-! ## The huge key -/

theorem hugeKey_length : hugeKey.length = 2147483648 := by
  unfold hugeKey
  exact List.length_replicate _ _

theorem hugeKey_stuck : toInt32 ((hugeKey.length : Int) - ((0 : Nat) : Int)) ≤ 0 := by
  rw [hugeKey_length]
  decide

/-- With the huge key and the cursor at its start, a call that reads a
non-empty block never returns. -/
theorem xorcat_hugeKey (fuel : Nat) (block : List Nat) (rs : List ReadRes)
    (ws : List WriteRes) (hb : block ≠ []) :
    xorcat hugeKey 0 fuel (.data block :: rs) ws = .diverged :=
  xorcat_stuck hugeKey 0 fuel block rs ws hb (by rw [hugeKey_length]; decide) hugeKey_stuck

/-! ## Key-cycle correctness -/

/-- C1 on the code: with a key of `2^31` bytes, cursor 0 and the input
`[0x41]` delivered by one read, `xorcat` does not return, whatever the fuel:
`remaining_keylen` is `-2^31`, no byte is processed and the do-while loop
never ends. -/
theorem key_cycle_fails_on_huge_key :
    ¬ ∃ fuel run, xorcat hugeKey 0 fuel (readsOf [[65]]) [] = Outcome.ok run := by
  rintro ⟨fuel, run, h⟩
  have hd := xorcat_hugeKey fuel [65] [ReadRes.data []] [] (by simp)
  have hr : readsOf [[65]] = [ReadRes.data [65], ReadRes.data []] := rfl
  rw [hr, hd] at h
  exact absurd h (by simp)

/-- For every non-empty key of length `L < 2^31`, every start
cursor `c < L` and every input delivered as non-empty blocks of at most
`BUF_SIZE` bytes followed by a read of zero bytes, every write taking its
block in full, `xorcat` returns `EXIT_SUCCESS`, the output has the length of
the input, and byte `i` of the output is byte `i` of the input XORed with
`K[(c + i) mod L]`. -/
theorem xorcat_key_cycle (key : List Nat) (c fuel : Nat) (blocks : List (List Nat))
    (ws : List WriteRes) (hL : 0 < key.length) (hL32 : key.length < 2147483648)
    (hc : c < key.length) (hblocks : ∀ b ∈ blocks, b ≠ [] ∧ b.length ≤ BUF_SIZE)
    (hw : fullWrites ws blocks = true) (hfuel : BUF_SIZE ≤ fuel) :
    ∃ run, xorcat key c fuel (readsOf blocks) ws = Outcome.ok run
      ∧ run.rc = EXIT_SUCCESS
      ∧ run.out.length = blocks.flatten.length
      ∧ (∀ i, i < blocks.flatten.length →
          run.out[i]? = some (xorByte (blocks.flatten.getD i 0)
            (key.getD ((c + i) % key.length) 0)))
      ∧ ((∀ b ∈ blocks.flatten, b < 256) → (∀ k ∈ key, k < 256) →
          ∀ i, i < blocks.flatten.length →
            run.out[i]? = some (blocks.flatten.getD i 0 ^^^ key.getD ((c + i) % key.length) 0)) := by
  have hb : ∀ b ∈ blocks, b ≠ [] ∧ b.length ≤ fuel :=
    fun b hmem => ⟨(hblocks b hmem).1, le_trans (hblocks b hmem).2 hfuel⟩
  have hpos : 0 < key.length := hL
  refine ⟨_, xorcat_readsOf key c fuel hL32 hc blocks ws hb hw, rfl, xorFrom_length _ _ _,
    fun i hi => xorFrom_index key c _ i hi, ?_⟩
  intro hM hK i hi
  show (xorFrom key c blocks.flatten)[i]? = _
  rw [xorFrom_index key c _ i hi, xorByte_eq_xor]
  · rw [List.getD_eq_getElem _ _ hi]
    exact hM _ (List.getElem_mem _)
  · exact getD_lt_of_all key hK _

/-- The two examples of the specification: key `[0x2A]` with input
`[0x41, 0x42]`, and key `[0x01, 0x02]` with input `[0x10, 0x20, 0x30]`, which
the theorem covers and which evaluate to `[0x6B, 0x68]` and
`[0x11, 0x22, 0x31]`. -/
theorem xorcat_key_cycle_witness :
    (∃ run, xorcat [1, 2] 0 4096 (readsOf [[16, 32, 48]]) [] = Outcome.ok run
      ∧ run.rc = EXIT_SUCCESS
      ∧ run.out.length = [[16, 32, 48]].flatten.length
      ∧ (∀ i, i < [[16, 32, 48]].flatten.length →
          run.out[i]? = some (xorByte ([[16, 32, 48]].flatten.getD i 0)
            ([1, 2].getD ((0 + i) % [1, 2].length) 0)))
      ∧ ((∀ b ∈ [[16, 32, 48]].flatten, b < 256) → (∀ k ∈ [1, 2], k < 256) →
          ∀ i, i < [[16, 32, 48]].flatten.length →
            run.out[i]? = some ([[16, 32, 48]].flatten.getD i 0
              ^^^ [1, 2].getD ((0 + i) % [1, 2].length) 0)))
    ∧ xorcat [1, 2] 0 4096 (readsOf [[16, 32, 48]]) []
        = Outcome.ok { rc := 0, cursor := 1, out := [17, 34, 49], reads := 2,
                       requests := [[17, 34, 49]], restWrites := [] }
    ∧ xorcat [42] 0 4096 (readsOf [[65, 66]]) []
        = Outcome.ok { rc := 0, cursor := 0, out := [107, 104], reads := 2,
                       requests := [[107, 104]], restWrites := [] } :=
  ⟨xorcat_key_cycle [1, 2] 0 4096 [[16, 32, 48]] [] (by decide) (by decide) (by decide)
      (by decide) (by decide) (by decide),
    by decide, by decide⟩

/-! ## Composability, involution, independence of the chunking -/

/-- For every non-empty key of length `L < 2^31`, every start
cursor `c0 < L` and every split of a message into `M1 ++ M2` (each part, and
the whole, delivered as non-empty blocks and written in full), running
`xorcat` on `M1` from `c0` and then on `M2` from the cursor the first call
left gives the same output bytes and the same final cursor as one call on
`M1 ++ M2` from `c0`; all three calls return `EXIT_SUCCESS`. -/
theorem xorcat_composable (key : List Nat) (c0 fuel : Nat) (bs1 bs2 bs : List (List Nat))
    (ws1 ws2 ws : List WriteRes) (hL : 0 < key.length) (hL32 : key.length < 2147483648)
    (hc : c0 < key.length)
    (h1 : ∀ b ∈ bs1, b ≠ [] ∧ b.length ≤ fuel) (h2 : ∀ b ∈ bs2, b ≠ [] ∧ b.length ≤ fuel)
    (h : ∀ b ∈ bs, b ≠ [] ∧ b.length ≤ fuel)
    (hw1 : fullWrites ws1 bs1 = true) (hw2 : fullWrites ws2 bs2 = true)
    (hw : fullWrites ws bs = true) (hsplit : bs.flatten = bs1.flatten ++ bs2.flatten) :
    ∃ r1 r2 r,
      xorcat key c0 fuel (readsOf bs1) ws1 = Outcome.ok r1
      ∧ xorcat key r1.cursor fuel (readsOf bs2) ws2 = Outcome.ok r2
      ∧ xorcat key c0 fuel (readsOf bs) ws = Outcome.ok r
      ∧ r1.rc = EXIT_SUCCESS ∧ r2.rc = EXIT_SUCCESS ∧ r.rc = EXIT_SUCCESS
      ∧ r1.out ++ r2.out = r.out ∧ r2.cursor = r.cursor := by
  have hc1 : (c0 + bs1.flatten.length) % key.length < key.length := Nat.mod_lt _ hL
  refine ⟨_, _, _, xorcat_readsOf key c0 fuel hL32 hc bs1 ws1 h1 hw1,
    xorcat_readsOf key _ fuel hL32 hc1 bs2 ws2 h2 hw2,
    xorcat_readsOf key c0 fuel hL32 hc bs ws h hw, rfl, rfl, rfl, ?_, ?_⟩
  · show xorFrom key c0 bs1.flatten ++ xorFrom key _ bs2.flatten = xorFrom key c0 bs.flatten
    rw [hsplit, xorFrom_append, xorFrom_mod]
  · show ((c0 + bs1.flatten.length) % key.length + bs2.flatten.length) % key.length
      = (c0 + bs.flatten.length) % key.length
    rw [hsplit, List.length_append, Nat.mod_add_mod, Nat.add_assoc]

/-- The split `[0x10] ++ [0x20, 0x30]` under the key `[0x01, 0x02]`, the whole
delivered as `[0x10, 0x20]` and `[0x30]`. -/
theorem xorcat_composable_witness :
    ∃ r1 r2 r,
      xorcat [1, 2] 0 8 (readsOf [[16]]) [] = Outcome.ok r1
      ∧ xorcat [1, 2] r1.cursor 8 (readsOf [[32, 48]]) [] = Outcome.ok r2
      ∧ xorcat [1, 2] 0 8 (readsOf [[16, 32], [48]]) [] = Outcome.ok r
      ∧ r1.rc = EXIT_SUCCESS ∧ r2.rc = EXIT_SUCCESS ∧ r.rc = EXIT_SUCCESS
      ∧ r1.out ++ r2.out = r.out ∧ r2.cursor = r.cursor :=
  xorcat_composable [1, 2] 0 8 [[16]] [[32, 48]] [[16, 32], [48]] [] [] []
    (by decide) (by decide) (by decide) (by decide) (by decide) (by decide)
    (by decide) (by decide) (by decide) (by decide)

/-- C3 on the code: with a key of `2^31` bytes, cursor 0 and the
message `[0x41]`, the first application does not return, so nothing is
reproduced. -/
theorem involution_fails_on_huge_key :
    ¬ ∃ fuel r1 r2,
        xorcat hugeKey 0 fuel (readsOf [[65]]) [] = Outcome.ok r1
        ∧ xorcat hugeKey 0 fuel (readsOf [r1.out]) [] = Outcome.ok r2
        ∧ r2.out = [65] := by
  rintro ⟨fuel, r1, r2, h1, -⟩
  have hd := xorcat_hugeKey fuel [65] [ReadRes.data []] [] (by simp)
  have hr : readsOf [[65]] = [ReadRes.data [65], ReadRes.data []] := rfl
  rw [hr, hd] at h1
  exact absurd h1 (by simp)

/-- For every non-empty key of length `L < 2^31`, every cursor
`c0 < L` and every message `M` (of bytes, delivered as non-empty blocks and
written in full), `xorcat` applied to `M` from `c0` returns `EXIT_SUCCESS`,
and `xorcat` applied from `c0` again to its output, however that output is
delivered, returns `EXIT_SUCCESS` with output `M`. -/
theorem xorcat_involution (key : List Nat) (c0 fuel : Nat) (bs : List (List Nat))
    (ws : List WriteRes) (hL : 0 < key.length) (hL32 : key.length < 2147483648)
    (hc : c0 < key.length) (hK : ∀ k ∈ key, k < 256) (hM : ∀ b ∈ bs.flatten, b < 256)
    (h : ∀ b ∈ bs, b ≠ [] ∧ b.length ≤ fuel) (hw : fullWrites ws bs = true) :
    ∃ r1, xorcat key c0 fuel (readsOf bs) ws = Outcome.ok r1 ∧ r1.rc = EXIT_SUCCESS
      ∧ ∀ (bs2 : List (List Nat)) (ws2 : List WriteRes),
          (∀ b ∈ bs2, b ≠ [] ∧ b.length ≤ fuel) → fullWrites ws2 bs2 = true →
          bs2.flatten = r1.out →
          ∃ r2, xorcat key c0 fuel (readsOf bs2) ws2 = Outcome.ok r2
            ∧ r2.rc = EXIT_SUCCESS ∧ r2.out = bs.flatten := by
  have hpos : 0 < key.length := hL
  refine ⟨_, xorcat_readsOf key c0 fuel hL32 hc bs ws h hw, rfl, ?_⟩
  intro bs2 ws2 h2 hw2 hflat
  refine ⟨_, xorcat_readsOf key c0 fuel hL32 hc bs2 ws2 h2 hw2, rfl, ?_⟩
  show xorFrom key c0 bs2.flatten = bs.flatten
  rw [hflat]
  exact xorFrom_involutive key hK c0 _ hM

/-- The message `[0x10, 0x20, 0x30]` under the key `[0x01, 0x02]` from cursor 1. -/
theorem xorcat_involution_witness :
    (∃ r1, xorcat [1, 2] 1 8 (readsOf [[16, 32, 48]]) [] = Outcome.ok r1
      ∧ r1.rc = EXIT_SUCCESS
      ∧ ∀ (bs2 : List (List Nat)) (ws2 : List WriteRes),
          (∀ b ∈ bs2, b ≠ [] ∧ b.length ≤ 8) → fullWrites ws2 bs2 = true →
          bs2.flatten = r1.out →
          ∃ r2, xorcat [1, 2] 1 8 (readsOf bs2) ws2 = Outcome.ok r2
            ∧ r2.rc = EXIT_SUCCESS ∧ r2.out = [[16, 32, 48]].flatten)
    ∧ xorcat [1, 2] 1 8 (readsOf [[16, 32, 48]]) []
        = Outcome.ok { rc := 0, cursor := 0, out := [18, 33, 50], reads := 2,
                       requests := [[18, 33, 50]], restWrites := [] }
    ∧ xorcat [1, 2] 1 8 (readsOf [[18, 33], [50]]) []
        = Outcome.ok { rc := 0, cursor := 0, out := [16, 32, 48], reads := 3,
                       requests := [[16, 32], [48]], restWrites := [] } :=
  ⟨xorcat_involution [1, 2] 1 8 [[16, 32, 48]] [] (by decide) (by decide) (by decide)
    (by decide) (by decide) (by decide) (by decide), by decide, by decide⟩

/-- For every non-empty key of length `L < 2^31`, every start
cursor `c < L` and every input `M`, two deliveries of `M` as non-empty blocks,
bounded by two buffer sizes `B1` and `B2`, give runs that both return
`EXIT_SUCCESS` with the same output bytes and the same final cursor. -/
theorem xorcat_chunking_independent (key : List Nat) (c B1 B2 fuel1 fuel2 : Nat)
    (M : List Nat) (bs1 bs2 : List (List Nat)) (ws1 ws2 : List WriteRes)
    (hL : 0 < key.length) (hL32 : key.length < 2147483648) (hc : c < key.length)
    (h1 : ∀ b ∈ bs1, b ≠ [] ∧ b.length ≤ B1) (h2 : ∀ b ∈ bs2, b ≠ [] ∧ b.length ≤ B2)
    (hf1 : B1 ≤ fuel1) (hf2 : B2 ≤ fuel2)
    (hw1 : fullWrites ws1 bs1 = true) (hw2 : fullWrites ws2 bs2 = true)
    (hM1 : bs1.flatten = M) (hM2 : bs2.flatten = M) :
    ∃ r1 r2,
      xorcat key c fuel1 (readsOf bs1) ws1 = Outcome.ok r1
      ∧ xorcat key c fuel2 (readsOf bs2) ws2 = Outcome.ok r2
      ∧ r1.rc = EXIT_SUCCESS ∧ r2.rc = EXIT_SUCCESS
      ∧ r1.out = r2.out ∧ r1.cursor = r2.cursor := by
  have hpos : 0 < key.length := hL
  have hb1 : ∀ b ∈ bs1, b ≠ [] ∧ b.length ≤ fuel1 :=
    fun b hmem => ⟨(h1 b hmem).1, le_trans (h1 b hmem).2 hf1⟩
  have hb2 : ∀ b ∈ bs2, b ≠ [] ∧ b.length ≤ fuel2 :=
    fun b hmem => ⟨(h2 b hmem).1, le_trans (h2 b hmem).2 hf2⟩
  refine ⟨_, _, xorcat_readsOf key c fuel1 hL32 hc bs1 ws1 hb1 hw1,
    xorcat_readsOf key c fuel2 hL32 hc bs2 ws2 hb2 hw2, rfl, rfl, ?_, ?_⟩
  · show xorFrom key c bs1.flatten = xorFrom key c bs2.flatten
    rw [hM1, hM2]
  · show (c + bs1.flatten.length) % key.length = (c + bs2.flatten.length) % key.length
    rw [hM1, hM2]

/-- The input `[0x10, 0x20, 0x30, 0x40, 0x50]` under the key `[1, 2, 3]` from
cursor 2, read with a buffer of 2 bytes and with a buffer of 4 bytes. -/
theorem xorcat_chunking_independent_witness :
    (∃ r1 r2,
      xorcat [1, 2, 3] 2 2 (readsOf [[16, 32], [48], [64, 80]]) [] = Outcome.ok r1
      ∧ xorcat [1, 2, 3] 2 4 (readsOf [[16, 32, 48, 64], [80]]) [] = Outcome.ok r2
      ∧ r1.rc = EXIT_SUCCESS ∧ r2.rc = EXIT_SUCCESS
      ∧ r1.out = r2.out ∧ r1.cursor = r2.cursor)
    ∧ xorcat [1, 2, 3] 2 2 (readsOf [[16, 32], [48], [64, 80]]) []
        = Outcome.ok { rc := 0, cursor := 1, out := [19, 33, 50, 67, 81], reads := 4,
                       requests := [[19, 33], [50], [67, 81]], restWrites := [] } :=
  ⟨xorcat_chunking_independent [1, 2, 3] 2 2 4 2 4 [16, 32, 48, 64, 80]
      [[16, 32], [48], [64, 80]] [[16, 32, 48, 64], [80]] [] []
      (by decide) (by decide) (by decide) (by decide) (by decide) (by decide) (by decide)
      (by decide) (by decide) (by decide) (by decide),
    by decide⟩

/-! ## The chunk loop and the per-byte loop -/

/-- C5 on the code: with a key of `2^31` bytes, cursor 0 and a block of
one byte the do-while loop never ends, so it leaves no buffer and no cursor. -/
theorem chunk_refinement_fails_on_huge_key :
    ¬ ∃ fuel, chunkLoop hugeKey 1 fuel [65] 0 0
        = Outcome.ok ((naiveLoop hugeKey [65] 0).1, 1, (naiveLoop hugeKey [65] 0).2) := by
  rintro ⟨fuel, h⟩
  rw [chunkLoop_stuck hugeKey 1 fuel [65] 0 0 (by rw [hugeKey_length]; decide) (by decide)
    hugeKey_stuck] at h
  exact absurd h (by simp)

/-- For every non-empty key of length `L < 2^31`, every cursor
`c < L` and every block of `res >= 1` bytes, the do-while loop of `xorcat`
ends (within `res` iterations) with `xor_idx = res` and with the buffer and
the cursor that the per-byte loop
`buffer[j] ^= K[cursor]; cursor = (cursor + 1) % L` produces. -/
theorem chunkLoop_refines_naiveLoop (key : List Nat) (c fuel : Nat) (block : List Nat)
    (hL : 0 < key.length) (hL32 : key.length < 2147483648) (hc : c < key.length)
    (hb : block ≠ []) (hfuel : block.length ≤ fuel) :
    chunkLoop key block.length fuel block 0 c
      = Outcome.ok ((naiveLoop key block c).1, block.length, (naiveLoop key block c).2) := by
  rw [naiveLoop_eq key hL block c hc]
  exact chunkLoop_total key fuel block c hL32 hc hb hfuel

/-- A block of 7 bytes under a key of 3 bytes from cursor 2: three chunks,
two wrap-arounds. -/
theorem chunkLoop_refines_naiveLoop_witness :
    chunkLoop [1, 2, 3] [10, 20, 30, 40, 50, 60, 70].length 7 [10, 20, 30, 40, 50, 60, 70] 0 2
      = Outcome.ok ((naiveLoop [1, 2, 3] [10, 20, 30, 40, 50, 60, 70] 2).1,
          [10, 20, 30, 40, 50, 60, 70].length,
          (naiveLoop [1, 2, 3] [10, 20, 30, 40, 50, 60, 70] 2).2)
    ∧ naiveLoop [1, 2, 3] [10, 20, 30, 40, 50, 60, 70] 2 = ([9, 21, 28, 43, 51, 62, 69], 0) :=
  ⟨chunkLoop_refines_naiveLoop [1, 2, 3] 2 7 [10, 20, 30, 40, 50, 60, 70]
      (by decide) (by decide) (by decide) (by decide) (by decide),
    by decide⟩

/-! ## The cursor after a call -/

/-- C6: for every non-empty key of length `L`, every start cursor `c < L` and
every script of reads and writes, a call of `xorcat` that returns
`EXIT_SUCCESS` leaves `(c + n) mod L` in `*key_iter_ptr`, where `n` is the
number of bytes the reads delivered. -/
theorem xorcat_final_cursor (key : List Nat) (c fuel : Nat) (rs : List ReadRes)
    (ws : List WriteRes) (run : Run) (hL : 0 < key.length) (hc : c < key.length)
    (h : xorcat key c fuel rs ws = Outcome.ok run) (hs : run.rc = EXIT_SUCCESS) :
    run.cursor = (c + (delivered rs).length) % key.length := by
  have hpos : 0 < key.length := hL
  have hcur : c < key.length := hc
  rcases (xorcat_cursor key c fuel rs ws run h).2 with ⟨_, h2⟩ | ⟨h1, _⟩
  · exact h2
  · rw [hs] at h1
    exact absurd h1 (by decide)

/-- Five bytes in two blocks under a key of 3 bytes from cursor 2; the first
write is short, the call still succeeds and the cursor is `(2 + 5) mod 3`. -/
theorem xorcat_final_cursor_witness :
    xorcat [1, 2, 3] 2 8 (readsOf [[16, 32], [48, 64, 80]]) [WriteRes.accepted 1]
        = Outcome.ok { rc := 0, cursor := 1, out := [19, 50, 67, 81], reads := 3,
                       requests := [[19, 33], [50, 67, 81]], restWrites := [] }
    ∧ (1 : Nat) = (2 + (delivered (readsOf [[16, 32], [48, 64, 80]])).length) % [1, 2, 3].length :=
  ⟨by decide,
    xorcat_final_cursor [1, 2, 3] 2 8 (readsOf [[16, 32], [48, 64, 80]]) [WriteRes.accepted 1]
      { rc := 0, cursor := 1, out := [19, 50, 67, 81], reads := 3,
        requests := [[19, 33], [50, 67, 81]], restWrites := [] }
      (by decide) (by decide) (by decide) (by decide)⟩

/-- C7: when the key is non-empty and the cursor is below the key length
before a call of `xorcat`, it is below the key length (so never equal to it)
after the call, whether the call returned success or failure; and in every
run of the input processing of `main`, which starts from cursor 0, the cursor
is below the key length before and after every call made. -/
theorem cursor_range_invariant (key : List Nat) (hL : 0 < key.length) :
    (∀ (c fuel : Nat) (rs : List ReadRes) (ws : List WriteRes) (run : Run),
        c < key.length → xorcat key c fuel rs ws = Outcome.ok run →
        0 ≤ run.cursor ∧ run.cursor < key.length ∧ run.cursor ≠ key.length)
    ∧ (∀ (fuel : Nat) (inputs : Inputs) (ws : List WriteRes) (d : DriverRun),
        processInputs key fuel inputs ws = Outcome.ok d →
        ∀ p ∈ d.calls, (p.1 < key.length ∧ p.1 ≠ key.length)
          ∧ (p.2 < key.length ∧ p.2 ≠ key.length)) := by
  constructor
  · intro c fuel rs ws run _ h
    have hlt := xorcat_cursor_lt key c fuel rs ws run h
    exact ⟨Nat.zero_le _, hlt, Nat.ne_of_lt hlt⟩
  · intro fuel inputs ws d h p hp
    have hboth : p.1 < key.length ∧ p.2 < key.length := by
      cases inputs with
      | stdin rs =>
        simp only [processInputs] at h
        obtain ⟨run, hrun, hd⟩ := Outcome.map_eq_ok _ _ _ h
        subst hd
        simp only [List.mem_singleton] at hp
        subst hp
        exact ⟨hL, xorcat_cursor_lt key 0 fuel rs ws run hrun⟩
      | files first more =>
        simp only [processInputs] at h
        exact fileLoop_calls key fuel _ ws 0 _ d h p hp
    exact ⟨⟨hboth.1, Nat.ne_of_lt hboth.1⟩, ⟨hboth.2, Nat.ne_of_lt hboth.2⟩⟩

/-- The key `[0x01, 0x02]`: the invariant for all its calls and runs, and the
run over the files `[0x10]` and `[0x20, 0x30]`, whose two calls go from
cursor 0 to 1 and from 1 to 1. -/
theorem cursor_range_invariant_witness :
    ((∀ (c fuel : Nat) (rs : List ReadRes) (ws : List WriteRes) (run : Run),
        c < [1, 2].length → xorcat [1, 2] c fuel rs ws = Outcome.ok run →
        0 ≤ run.cursor ∧ run.cursor < [1, 2].length ∧ run.cursor ≠ [1, 2].length)
      ∧ (∀ (fuel : Nat) (inputs : Inputs) (ws : List WriteRes) (d : DriverRun),
        processInputs [1, 2] fuel inputs ws = Outcome.ok d →
        ∀ p ∈ d.calls, (p.1 < [1, 2].length ∧ p.1 ≠ [1, 2].length)
          ∧ (p.2 < [1, 2].length ∧ p.2 ≠ [1, 2].length)))
    ∧ processInputs [1, 2] 8 (Inputs.files (some (readsOf [[16]])) [some (readsOf [[32, 48]])]) []
        = Outcome.ok { rc := 0, out := [17, 34, 49], calls := [(0, 1), (1, 1)] }
    ∧ xorcat [1, 2] 1 8 [ReadRes.data [16], ReadRes.error] []
        = Outcome.ok { rc := 1, cursor := 1, out := [18], reads := 2, requests := [[18]],
                       restWrites := [] } :=
  ⟨cursor_range_invariant [1, 2] (by decide), by decide, by decide⟩

/-- C8, as stated, fails: under the key `[0x01, 0x02]` from cursor 0, a call
whose first read delivers `[0x10]` and whose second read fails returns
`EXIT_FAILURE` after one byte was processed and written, and the cursor of the
caller is still 0, not `(0 + 1) mod 2`. -/
theorem failed_call_cursor_not_advanced :
    ∃ run, xorcat [1, 2] 0 4096 [ReadRes.data [16], ReadRes.error] [] = Outcome.ok run
      ∧ run.rc = EXIT_FAILURE ∧ run.out = [17] ∧ run.cursor ≠ (0 + 1) % [1, 2].length :=
  ⟨{ rc := 1, cursor := 0, out := [17], reads := 2, requests := [[17]], restWrites := [] },
    by decide, by decide, by decide, by decide⟩

/-- C8 (amended): every call of `xorcat` that returns failure (a read error or
a write error), whatever number of bytes it processed before, leaves the
cursor of the caller unchanged, equal to the start cursor `c`; the advanced
position is stored only when the call succeeds. -/
theorem xorcat_failure_keeps_cursor (key : List Nat) (c fuel : Nat) (rs : List ReadRes)
    (ws : List WriteRes) (run : Run)
    (h : xorcat key c fuel rs ws = Outcome.ok run) (hf : run.rc ≠ EXIT_SUCCESS) :
    run.rc = EXIT_FAILURE ∧ run.cursor = c := by
  rcases (xorcat_cursor key c fuel rs ws run h).2 with ⟨h1, _⟩ | h2
  · exact absurd h1 hf
  · exact h2

/-- A write error on the second block, after three bytes were processed and
two were written: the cursor of the caller stays 1. -/
theorem xorcat_failure_keeps_cursor_witness :
    xorcat [1, 2, 3] 1 8 [ReadRes.data [16, 32], ReadRes.data [48]]
        [WriteRes.accepted 2, WriteRes.error]
      = Outcome.ok { rc := 1, cursor := 1, out := [18, 35], reads := 2,
                     requests := [[18, 35], [49]], restWrites := [] }
    ∧ ((1 : Int) = EXIT_FAILURE ∧ (1 : Nat) = 1) :=
  ⟨by decide,
    xorcat_failure_keeps_cursor [1, 2, 3] 1 8 [ReadRes.data [16, 32], ReadRes.data [48]]
      [WriteRes.accepted 2, WriteRes.error]
      { rc := 1, cursor := 1, out := [18, 35], reads := 2,
        requests := [[18, 35], [49]], restWrites := [] }
      (by decide) (by decide)⟩

/-! ## Failures of write and read -/

/-- C9 on the code: under the key `[0x2A]`, the first write takes only one of
the two bytes of its block (`write` returns 1); `xorcat` goes on to read and
write the next block and returns `EXIT_SUCCESS`, the byte `0x68` missing from
the output. -/
theorem short_write_not_detected :
    xorcat [42] 0 4096 (readsOf [[65, 66], [67]]) [WriteRes.accepted 1]
      = Outcome.ok { rc := EXIT_SUCCESS, cursor := 0, out := [107, 105], reads := 3,
                     requests := [[107, 104], [105]], restWrites := [] } := by
  decide

/-! ## Iterations of the do-while loop -/

/-- The do-while loop runs one iteration and then tests `xor_idx < res`. -/
theorem chunkLoop_succ (key : List Nat) (res fuel : Nat) (buffer : List Nat) (idx ki : Nat) :
    chunkLoop key res (fuel + 1) buffer idx ki
      = chunkNext key res fuel (chunkStep key res buffer idx ki) := by
  have hxb : (if (res : Int) - (idx : Int) < toInt32 ((key.length : Int) - (ki : Int))
      then (res : Int) - (idx : Int) else toInt32 ((key.length : Int) - (ki : Int)))
      = xor_bytes key.length ki res idx := rfl
  simp only [chunkLoop, chunkStep, hxb]
  by_cases h : (idx : Int) + xor_bytes key.length ki res idx ≤ (res : Int)
  · simp only [h, if_true]
    generalize xorChunk key ((idx : Int) + xor_bytes key.length ki res idx - (idx : Int)).toNat
      buffer idx ki = o
    cases o with
    | ok a =>
      obtain ⟨b1, i1, k1⟩ := a
      rfl
    | abort => rfl
    | fault => rfl
    | diverged => rfl
  · simp only [h, if_false]
    rfl

/-- For a key position less than `2^31` bytes before the end of the key, the
chunk length is the smaller of the bytes left in the block and the bytes left
in the key. -/
theorem xor_bytes_eq_min (keylen ki res idx : Nat) (hki : ki < keylen)
    (hsmall : keylen - ki < 2147483648) :
    xor_bytes keylen ki res idx = min ((res : Int) - (idx : Int)) ((keylen : Int) - (ki : Int)) := by
  unfold xor_bytes
  have h := toInt32_of_small ((keylen : Int) - (ki : Int)) (by omega) (by omega)
  simp only [h]
  split_ifs with hlt
  · exact (min_eq_left (le_of_lt hlt)).symm
  · exact (min_eq_right (by omega)).symm

/-- One iteration of the do-while loop under a key shorter than `2^31` bytes. -/
theorem chunkStep_spec (key : List Nat) (res : Nat) (buffer : List Nat) (idx ki : Nat)
    (hL32 : key.length < 2147483648) (hlen : buffer.length = res) (hidx : idx < res)
    (hki : ki < key.length) :
    ∃ n : Nat, 1 ≤ n ∧ xor_bytes key.length ki res idx = (n : Int)
      ∧ idx + n ≤ res ∧ ki + n ≤ key.length ∧ (idx + n < res → ki + n = key.length)
      ∧ chunkStep key res buffer idx ki
          = .ok (buffer.take idx ++ xorFrom key ki ((buffer.drop idx).take n) ++ buffer.drop (idx + n),
              idx + n, (ki + n) % key.length) := by
  have hxb := xor_bytes_eq_min key.length ki res idx hki (by omega)
  refine ⟨min (res - idx) (key.length - ki), by omega, ?_, by omega, by omega, by omega, ?_⟩
  · rw [hxb]
    omega
  · have hxn : xor_bytes key.length ki res idx = ((min (res - idx) (key.length - ki) : Nat) : Int) := by
      rw [hxb]
      omega
    generalize hn : min (res - idx) (key.length - ki) = n at hxn
    have hn1 : idx + n ≤ res := by omega
    have hn2 : ki + n ≤ key.length := by omega
    unfold chunkStep
    simp only [hxn]
    rw [if_pos (by omega)]
    have htoNat : ((idx : Int) + (n : Int) - (idx : Int)).toNat = n := by omega
    rw [htoNat]
    have hsplit : buffer = buffer.take idx ++ buffer.drop idx := (List.take_append_drop idx buffer).symm
    have hPlen : (buffer.take idx).length = idx := by
      rw [List.length_take]
      omega
    have hchunk := xorChunk_spec key n (buffer.take idx) (buffer.drop idx) ki
      (by rw [List.length_drop]; omega) hn2
    rw [hPlen, ← hsplit] at hchunk
    rw [hchunk]
    simp only [wrap_eq_mod key.length (ki + n) (by omega) hn2, List.drop_drop]

/-! ## Scripts of writes -/

theorem fullWrites_nil_right (ws : List WriteRes) : fullWrites ws [] = true := by
  cases ws with
  | nil => rfl
  | cons w ws1 => cases w <;> rfl

theorem fullWrites_append (ws : List WriteRes) (A B : List (List Nat)) :
    fullWrites ws (A ++ B) = (fullWrites ws A && fullWrites (ws.drop A.length) B) := by
  induction A generalizing ws with
  | nil => simp [fullWrites_nil_right]
  | cons a A ih =>
    cases ws with
    | nil => simp [fullWrites]
    | cons w ws1 =>
      cases w with
      | error => simp [fullWrites]
      | accepted n => simp [fullWrites, ih, Bool.and_assoc]

theorem fullWrites_append_left (pre rest : List WriteRes) (blocks : List (List Nat))
    (hlen : pre.length = blocks.length) (h : fullWrites pre blocks = true) :
    fullWrites (pre ++ rest) blocks = true := by
  induction blocks generalizing pre with
  | nil => exact fullWrites_nil_right _
  | cons b bs ih =>
    cases pre with
    | nil => simp at hlen
    | cons w pre1 =>
      cases w with
      | error => simp [fullWrites] at h
      | accepted n =>
        simp only [fullWrites, Bool.and_eq_true, decide_eq_true_eq] at h
        simp only [List.cons_append, fullWrites, Bool.and_eq_true, decide_eq_true_eq]
        exact ⟨h.1, ih pre1 (by simpa using hlen) h.2⟩

/-! ## One write request per block -/

theorem xorBlocks_congr (key : List Nat) (p q : Nat) (blocks : List (List Nat))
    (h : p % key.length = q % key.length) : xorBlocks key p blocks = xorBlocks key q blocks := by
  induction blocks generalizing p q with
  | nil => rfl
  | cons b bs ih =>
    simp only [xorBlocks]
    rw [xorFrom_congr key p q b h, ih (p + b.length) (q + b.length)
      (by rw [Nat.add_mod, h, ← Nat.add_mod])]

theorem xorBlocks_map_length (key : List Nat) (p : Nat) (blocks : List (List Nat)) :
    (xorBlocks key p blocks).map List.length = blocks.map List.length := by
  induction blocks generalizing p with
  | nil => rfl
  | cons b bs ih => simp [xorBlocks, ih, xorFrom_length]

/-- The write requests of a finished block loop: one request per non-empty
block read, holding the transformed bytes of the block. -/
theorem xorcatLoop_requests (key : List Nat) (start fuel : Nat) (rs : List ReadRes)
    (ws : List WriteRes) (ki : Nat) (run : Run) (hki : ki < key.length)
    (h : xorcatLoop key start fuel rs ws ki = .ok run) :
    ∃ (bs : List (List Nat)) (tail : List ReadRes),
      rs = bs.map ReadRes.data ++ tail ∧ (∀ b ∈ bs, b ≠ [])
      ∧ run.requests = xorBlocks key ki bs
      ∧ ((run.reads = bs.length + 1 ∧ ∀ b t, tail = ReadRes.data b :: t → b = [])
          ∨ (run.reads = bs.length ∧ run.rc = EXIT_FAILURE ∧ bs ≠ [])) := by
  induction rs generalizing ws ki run with
  | nil =>
    simp only [xorcatLoop, Outcome.ok.injEq] at h
    subst h
    exact ⟨[], [], rfl, by simp, rfl, Or.inl ⟨rfl, by simp⟩⟩
  | cons r rs ih =>
    cases r with
    | error =>
      simp only [xorcatLoop, Outcome.ok.injEq] at h
      subst h
      exact ⟨[], _, rfl, by simp, rfl, Or.inl ⟨rfl, by simp⟩⟩
    | data block =>
      by_cases hb : block = []
      · subst hb
        simp only [xorcatLoop, List.length_nil, if_true, Outcome.ok.injEq] at h
        subst h
        refine ⟨[], _, rfl, by simp, rfl, Or.inl ⟨rfl, ?_⟩⟩
        intro b t hbt
        simp only [List.cons.injEq, ReadRes.data.injEq] at hbt
        exact hbt.1.symm
      · have hL : 0 < key.length := by omega
        have hne : block.length ≠ 0 := fun h0 => hb (List.length_eq_zero.mp h0)
        have hspec := chunkLoop_spec key block.length fuel [] block ki hki hb (by simp)
        simp only [List.nil_append, List.length_nil] at hspec
        rcases hspec with hok | ⟨hdiv, _⟩
        · rw [xorcatLoop_block key start fuel block rs ws ki hb hok] at h
          have hstep : ∀ (ws1 : List WriteRes) (r1 : Run) (t : List Nat),
              xorcatLoop key start fuel rs ws1 ((ki + block.length) % key.length) = .ok r1 →
              ∃ (bs : List (List Nat)) (tail : List ReadRes),
                ReadRes.data block :: rs = bs.map ReadRes.data ++ tail ∧ (∀ b ∈ bs, b ≠ [])
                ∧ (Run.after t (xorFrom key ki block) r1).requests = xorBlocks key ki bs
                ∧ (((Run.after t (xorFrom key ki block) r1).reads = bs.length + 1
                      ∧ ∀ b t1, tail = ReadRes.data b :: t1 → b = [])
                    ∨ ((Run.after t (xorFrom key ki block) r1).reads = bs.length
                      ∧ (Run.after t (xorFrom key ki block) r1).rc = EXIT_FAILURE ∧ bs ≠ [])) := by
            intro ws1 r1 t hr1
            obtain ⟨bs, tail, hrs, hbs, hreq, hreads⟩ := ih ws1 _ r1 (Nat.mod_lt _ hL) hr1
            refine ⟨block :: bs, tail, by simp [hrs], ?_, ?_, ?_⟩
            · intro b hbmem
              rcases List.mem_cons.mp hbmem with rfl | hmem
              · exact hb
              · exact hbs b hmem
            · simp only [Run.after, xorBlocks, hreq]
              rw [xorBlocks_congr key ((ki + block.length) % key.length) (ki + block.length) bs
                (Nat.mod_mod _ _)]
            · rcases hreads with ⟨h1, h2⟩ | ⟨h1, h2, _⟩
              · exact Or.inl ⟨by simp [Run.after, h1], h2⟩
              · exact Or.inr ⟨by simp [Run.after, h1], h2, by simp⟩
          cases ws with
          | nil =>
            obtain ⟨r1, hr1, hrun⟩ := Outcome.map_eq_ok _ _ _ h
            subst hrun
            exact hstep [] r1 _ hr1
          | cons w ws1 =>
            cases w with
            | error =>
              simp only [Outcome.ok.injEq] at h
              subst h
              exact ⟨[block], rs, rfl, by simpa using hb, by simp [xorBlocks],
                Or.inr ⟨rfl, rfl, by simp⟩⟩
            | accepted n =>
              obtain ⟨r1, hr1, hrun⟩ := Outcome.map_eq_ok _ _ _ h
              subst hrun
              exact hstep ws1 r1 _ hr1
        · rw [xorcatLoop] at h
          simp only [if_neg hne, hdiv] at h
          exact absurd h (by simp)

/-! ## The file loop -/

theorem Outcome.map_driver_id (o : Outcome DriverRun) :
    o.map (fun d => { d with out := [] ++ d.out, calls := [] ++ d.calls }) = o := by
  cases o <;> rfl

theorem contents_cons (f : List (List Nat)) (fs : List (List (List Nat))) :
    contents (f :: fs) = f.flatten ++ contents fs := by
  simp [contents]

/-- The file loop over files that are all read to their end and written in
full. -/
theorem fileLoop_files (key : List Nat) (fuel : Nat) (hL : 0 < key.length)
    (hL32 : key.length < 2147483648) (files : List (List (List Nat)))
    (rest : List (Option (List ReadRes))) (ws : List WriteRes) (p : Nat) (rc0 : Int)
    (hb : ∀ f ∈ files, ∀ b ∈ f, b ≠ [] ∧ b.length ≤ fuel)
    (hw : fullWrites ws files.flatten = true) :
    fileLoop key fuel (files.map (fun f => some (readsOf f)) ++ rest) ws (p % key.length) rc0
      = (fileLoop key fuel rest (ws.drop files.flatten.length)
          ((p + (contents files).length) % key.length)
          (if files.isEmpty then rc0 else EXIT_SUCCESS)).map
          (fun d => { d with out := xorFrom key p (contents files) ++ d.out,
                             calls := callCursors key.length p files ++ d.calls }) := by
  induction files generalizing ws p rc0 with
  | nil =>
    simp only [List.map_nil, List.nil_append, List.flatten_nil, List.length_nil, List.drop_zero,
      contents, Nat.add_zero, List.isEmpty_nil, if_true, xorFrom, callCursors]
    exact (Outcome.map_driver_id _).symm
  | cons f fs ih =>
    have hf : ∀ b ∈ f, b ≠ [] ∧ b.length ≤ fuel := hb f (List.mem_cons_self _ _)
    have hfs : ∀ g ∈ fs, ∀ b ∈ g, b ≠ [] ∧ b.length ≤ fuel :=
      fun g hg => hb g (List.mem_cons_of_mem _ hg)
    rw [List.flatten_cons, fullWrites_append, Bool.and_eq_true] at hw
    have hcall := xorcat_readsOf key (p % key.length) fuel hL32 (Nat.mod_lt _ hL) f ws hf hw.1
    rw [xorFrom_mod, Nat.mod_add_mod] at hcall
    simp only [List.map_cons, List.cons_append, fileLoop, hcall, ne_eq, not_true_eq_false,
      if_false, List.append_eq]
    rw [ih (ws.drop f.length) (p + f.flatten.length) EXIT_SUCCESS hfs hw.2]
    simp only [Outcome.map_map, List.drop_drop, List.flatten_cons, List.length_append,
      contents_cons, Nat.add_assoc, List.isEmpty_cons, ite_self]
    congr 1
    funext d
    simp only [DriverRun.after, xorFrom_append, callCursors, List.append_assoc, List.cons_append]

theorem callCursors_length (keylen p : Nat) (files : List (List (List Nat))) :
    (callCursors keylen p files).length = files.length := by
  induction files generalizing p with
  | nil => rfl
  | cons f fs ih => simp [callCursors, ih]

/-! ## Runs over several files -/

/-- With the huge key, the file loop does not return from the call for a
first file that delivers a non-empty block. -/
theorem fileLoop_hugeKey (fuel : Nat) (block : List Nat) (rs : List ReadRes)
    (fs : List (Option (List ReadRes))) (ws : List WriteRes) (rc : Int) (hb : block ≠ []) :
    fileLoop hugeKey fuel (some (ReadRes.data block :: rs) :: fs) ws 0 rc = .diverged := by
  rw [fileLoop, xorcat_hugeKey fuel block rs ws hb]

/-- C12 on the code: with a key of `2^31` bytes, the run over the files
`[0x10]` and `[0x20, 0x30]` does not return from the call for the first
file, so `main` emits nothing and does not exit. -/
theorem multi_file_claim_fails_on_huge_key :
    ¬ ∃ fuel d,
        processInputs hugeKey fuel
          (Inputs.files (some (readsOf [[16]])) [some (readsOf [[32, 48]])]) []
          = Outcome.ok d := by
  rintro ⟨fuel, d, h⟩
  have hr : readsOf [[16]] = [ReadRes.data [16], ReadRes.data []] := rfl
  rw [processInputs, hr, fileLoop_hugeKey fuel [16] _ _ [] _ (by simp)] at h
  exact absurd h (by simp)

/-- For every non-empty key of length `L < 2^31` and every
list of one or more data files that all open, are read to their end in
non-empty blocks and are written in full, the file loop of `main`, which
starts the cursor at the key's start and hands it from one `xorcat` call to
the next, returns 0 and emits exactly the output of a single `xorcat` call
from cursor 0 over the concatenation of the files, however the concatenation
is delivered: the bytes of the files XORed with the key repeated from its
start. -/
theorem driver_equals_single_call (key : List Nat) (fuel : Nat)
    (first : List (List Nat)) (more : List (List (List Nat))) (bs : List (List Nat))
    (ws ws1 : List WriteRes) (hL : 0 < key.length) (hL32 : key.length < 2147483648)
    (hfiles : ∀ f ∈ first :: more, ∀ b ∈ f, b ≠ [] ∧ b.length ≤ fuel)
    (hbs : ∀ b ∈ bs, b ≠ [] ∧ b.length ≤ fuel)
    (hw : fullWrites ws (first :: more).flatten = true) (hw1 : fullWrites ws1 bs = true)
    (hcat : bs.flatten = contents (first :: more)) :
    ∃ d r,
      processInputs key fuel
          (Inputs.files (some (readsOf first)) (more.map (fun f => some (readsOf f)))) ws
        = Outcome.ok d
      ∧ xorcat key 0 fuel (readsOf bs) ws1 = Outcome.ok r
      ∧ d.rc = 0 ∧ r.rc = EXIT_SUCCESS
      ∧ d.out = r.out
      ∧ d.out = xorFrom key 0 (contents (first :: more))
      ∧ d.calls.length = (first :: more).length := by
  have hloop := fileLoop_files key fuel hL hL32 (first :: more) [] ws 0 EXIT_SUCCESS hfiles hw
  simp only [Nat.zero_mod, List.map_cons, List.append_nil] at hloop
  have hd : processInputs key fuel
      (Inputs.files (some (readsOf first)) (more.map (fun f => some (readsOf f)))) ws
      = Outcome.ok { rc := EXIT_SUCCESS, out := xorFrom key 0 (contents (first :: more)),
                     calls := callCursors key.length 0 (first :: more) } := by
    simp only [processInputs]
    rw [hloop]
    simp [fileLoop, Outcome.map]
  refine ⟨_, _, hd, xorcat_readsOf key 0 fuel hL32 hL bs ws1 hbs hw1, rfl, rfl, ?_, rfl,
    callCursors_length _ _ _⟩
  show xorFrom key 0 (contents (first :: more)) = xorFrom key 0 bs.flatten
  rw [hcat]

/-- The two-file example of the specification: key `[0x01, 0x02]`, files
`[0x10]` and `[0x20, 0x30]`, against the single input `[0x10, 0x20, 0x30]`;
both give `[0x11, 0x22, 0x31]`. -/
theorem driver_equals_single_call_witness :
    (∃ d r,
      processInputs [1, 2] 8
          (Inputs.files (some (readsOf [[16]]))
            ([[[32, 48]]].map (fun f => some (readsOf f)))) []
        = Outcome.ok d
      ∧ xorcat [1, 2] 0 8 (readsOf [[16, 32, 48]]) [] = Outcome.ok r
      ∧ d.rc = 0 ∧ r.rc = EXIT_SUCCESS
      ∧ d.out = r.out
      ∧ d.out = xorFrom [1, 2] 0 (contents ([[16]] :: [[[32, 48]]]))
      ∧ d.calls.length = ([[16]] :: [[[32, 48]]]).length)
    ∧ processInputs [1, 2] 8
          (Inputs.files (some (readsOf [[16]])) [some (readsOf [[32, 48]])]) []
        = Outcome.ok { rc := 0, out := [17, 34, 49], calls := [(0, 1), (1, 1)] }
    ∧ xorcat [1, 2] 0 8 (readsOf [[16, 32, 48]]) []
        = Outcome.ok { rc := 0, cursor := 1, out := [17, 34, 49], reads := 2,
                       requests := [[17, 34, 49]], restWrites := [] } :=
  ⟨driver_equals_single_call [1, 2] 8 [[16]] [[[32, 48]]] [[16, 32, 48]] [] []
      (by decide) (by decide) (by decide) (by decide) (by decide) (by decide) (by decide),
    by decide, by decide⟩

/-- C13 on the code. Under the key `[0x2A]` the first file delivers
`[0x41, 0x42]`, its write takes one byte only, and the second file cannot be
opened: `main` exits with 1, the call for the first file having returned
success, and the output `[0x6B]` is not the full transformed contents
`[0x6B, 0x68]` of the first file. And with a key of `2^31` bytes, a first
file that delivers `[0x41]` and a second file that cannot be opened, `main`
does not exit. -/
theorem first_failure_claim_fails :
    (∃ d, processInputs [42] 8 (Inputs.files (some (readsOf [[65, 66]])) [none])
            [WriteRes.accepted 1] = Outcome.ok d
        ∧ d.rc = 1 ∧ d.calls = [(0, 0)] ∧ d.out = [107]
        ∧ d.out ≠ xorFrom [42] 0 (contents [[[65, 66]]]))
    ∧ ¬ ∃ fuel d, processInputs hugeKey fuel (Inputs.files (some (readsOf [[65]])) [none]) []
          = Outcome.ok d := by
  constructor
  · exact ⟨{ rc := 1, out := [107], calls := [(0, 0)] }, by decide, by decide, by decide,
      by decide, by decide⟩
  · rintro ⟨fuel, d, h⟩
    have hr : readsOf [[65]] = [ReadRes.data [65], ReadRes.data []] := rfl
    rw [processInputs, hr, fileLoop_hugeKey fuel [65] _ _ [] _ (by simp)] at h
    exact absurd h (by simp)

/-- For every non-empty key of length `L < 2^31` and every
list of data files in which the files before file `k` open, are read to
their end in non-empty blocks and are written in full, and file `k` cannot be
opened or its `xorcat` call returns failure, the file loop of `main` makes no
`xorcat` call for the files after `k`, returns 1, and the output is the
transformed contents of the files before `k`, the key cycle continued across
them, followed only by what the call for file `k` got written before it
failed. -/
theorem driver_stops_at_first_failure (key : List Nat) (fuel : Nat)
    (before : List (List (List Nat))) (failing : Option (List ReadRes))
    (after : List (Option (List ReadRes)))
    (first : Option (List ReadRes)) (more : List (Option (List ReadRes)))
    (ws : List WriteRes) (failOut : List Nat)
    (hL : 0 < key.length) (hL32 : key.length < 2147483648)
    (hfiles : first :: more = before.map (fun f => some (readsOf f)) ++ failing :: after)
    (hb : ∀ f ∈ before, ∀ b ∈ f, b ≠ [] ∧ b.length ≤ fuel)
    (hw : fullWrites ws before.flatten = true)
    (hfail : match failing with
      | none => failOut = []
      | some rs => ∃ run, xorcat key ((contents before).length % key.length) fuel rs
            (ws.drop before.flatten.length) = Outcome.ok run
          ∧ run.rc ≠ EXIT_SUCCESS ∧ run.out = failOut) :
    ∃ d, processInputs key fuel (Inputs.files first more) ws = Outcome.ok d
      ∧ d.rc = 1
      ∧ d.out = xorFrom key 0 (contents before) ++ failOut
      ∧ d.calls.length = before.length + (if failing.isSome then 1 else 0) := by
  have hloop := fileLoop_files key fuel hL hL32 before (failing :: after) ws 0 EXIT_SUCCESS hb hw
  simp only [Nat.zero_mod, Nat.zero_add] at hloop
  simp only [processInputs]
  rw [hfiles, hloop]
  cases failing with
  | none =>
    simp only at hfail
    subst hfail
    refine ⟨{ rc := EXIT_FAILURE, out := xorFrom key 0 (contents before) ++ [],
              calls := callCursors key.length 0 before ++ [] },
      by simp only [fileLoop, Outcome.map], rfl, rfl, ?_⟩
    simp [callCursors_length]
  | some rs =>
    obtain ⟨run, hrun, hrc, hout⟩ := hfail
    have hone : run.rc = EXIT_FAILURE := by
      rcases (xorcat_cursor key _ fuel rs _ run hrun).2 with ⟨h1, _⟩ | ⟨h1, _⟩
      · exact absurd h1 hrc
      · exact h1
    refine ⟨{ rc := run.rc, out := xorFrom key 0 (contents before) ++ run.out,
              calls := callCursors key.length 0 before
                ++ [((contents before).length % key.length, run.cursor)] },
      by simp only [fileLoop, hrun, ne_eq, hrc, not_false_eq_true, if_true, Outcome.map],
      ?_, ?_, ?_⟩
    · exact hone
    · simp [hout]
    · simp [callCursors_length]

/-- Two files read and written in full under the key `[0x01, 0x02]`, a third
file whose second read fails after one block, and a fourth file, for which no
call is made. -/
theorem driver_stops_at_first_failure_witness :
    (∃ d, processInputs [1, 2] 8
          (Inputs.files (some (readsOf [[16]]))
            [some (readsOf [[32, 48]]), some [ReadRes.data [64], ReadRes.error],
              some (readsOf [[80]])]) []
        = Outcome.ok d
      ∧ d.rc = 1
      ∧ d.out = xorFrom [1, 2] 0 (contents [[[16]], [[32, 48]]]) ++ [66]
      ∧ d.calls.length = [[[16]], [[32, 48]]].length
          + (if (some [ReadRes.data [64], ReadRes.error]).isSome then 1 else 0))
    ∧ processInputs [1, 2] 8
          (Inputs.files (some (readsOf [[16]]))
            [some (readsOf [[32, 48]]), some [ReadRes.data [64], ReadRes.error],
              some (readsOf [[80]])]) []
        = Outcome.ok { rc := 1, out := [17, 34, 49, 66], calls := [(0, 1), (1, 1), (1, 1)] } :=
  ⟨driver_stops_at_first_failure [1, 2] 8 [[[16]], [[32, 48]]]
      (some [ReadRes.data [64], ReadRes.error]) [some (readsOf [[80]])]
      (some (readsOf [[16]]))
      [some (readsOf [[32, 48]]), some [ReadRes.data [64], ReadRes.error], some (readsOf [[80]])]
      [] [66] (by decide) (by decide) (by decide) (by decide) (by decide)
      ⟨{ rc := 1, cursor := 1, out := [66], reads := 2, requests := [[66]], restWrites := [] },
        by decide, by decide, by decide⟩,
    by decide⟩

/-! ## The key file -/

/-- C14: for every argument list whose key file is opened and has size 0
(whatever `fstat` and `mmap` would give, and whatever data files are named),
`main` returns `EXIT_FAILURE`, which is 1, without any `xorcat` call and
without any output. -/
theorem zero_length_key_rejected (fuel : Nat) (env : Env) (prog keyPath : String)
    (dataPaths : List String) (keyFile : KeyFile)
    (hkey : keyPath ≠ "-h" ∧ keyPath ≠ "--help")
    (hopen : env.openKey keyPath = some keyFile) (hsize : keyFile.bytes.length = 0) :
    main fuel env (prog :: keyPath :: dataPaths)
      = Outcome.ok { rc := 1, usage := false, out := [], calls := [] } := by
  have hnot : ¬ (keyPath = "-h" ∨ keyPath = "--help") := fun h => h.elim hkey.1 hkey.2
  simp only [main, if_neg hnot, hopen, hsize, if_true]
  split_ifs <;> rfl

/-- An empty key file and two data files that could be read. -/
theorem zero_length_key_rejected_witness :
    main 8
        { openKey := fun _ => some { fstatOk := true, bytes := [], mmapOk := true },
          openData := fun _ => some (readsOf [[16, 32]]),
          stdin := [], writes := [] }
        ("xorcat" :: "key" :: ["a", "b"])
      = Outcome.ok { rc := 1, usage := false, out := [], calls := [] } :=
  zero_length_key_rejected 8
    { openKey := fun _ => some { fstatOk := true, bytes := [], mmapOk := true },
      openData := fun _ => some (readsOf [[16, 32]]),
      stdin := [], writes := [] }
    "xorcat" "key" ["a", "b"] { fstatOk := true, bytes := [], mmapOk := true }
    (by decide) rfl rfl

/-! ## The chunk length -/

/-- C15 on the code: for a key of `2^31` bytes with the cursor at its start
and a block with one byte left, `key_end - key_iter` is `2^31`, the `int`
`remaining_keylen` is `-2^31` and so is `xor_bytes`, while
`min(remaining_bytes, L - cursor)` is 1; the iteration then leaves the
buffer, `xor_idx` and `key_iter` as they were. -/
theorem chunk_length_truncated :
    xor_bytes hugeKey.length 0 1 0 = -2147483648
    ∧ min ((1 : Int) - 0) ((hugeKey.length : Int) - 0) = 1
    ∧ chunkStep hugeKey 1 [65] 0 0 = Outcome.ok ([65], 0, 0) := by
  have hxb : xor_bytes hugeKey.length 0 1 0 = -2147483648 := by
    rw [hugeKey_length]
    decide
  refine ⟨hxb, ?_, ?_⟩
  · rw [hugeKey_length]
    decide
  · have hne : ¬ (0 = hugeKey.length) := by
      rw [hugeKey_length]
      decide
    simp only [chunkStep, hxb]
    rw [if_pos (by decide)]
    simp [xorChunk, hne]

/-! ## An empty input -/

/-- C16: for every non-empty key and every cursor `c` below its length, when
the first read of a call returns 0 bytes, `xorcat` returns `EXIT_SUCCESS`
after that one read, makes no write request, so that the output is empty and
the script of writes is untouched, and leaves the cursor of the caller equal
to `c`. -/
theorem xorcat_empty_input (key : List Nat) (c fuel : Nat) (rs : List ReadRes)
    (ws : List WriteRes) (hL : 0 < key.length) (hc : c < key.length)
    (hfirst : rs = [] ∨ ∃ rest, rs = ReadRes.data [] :: rest) :
    xorcat key c fuel rs ws
      = Outcome.ok { rc := EXIT_SUCCESS, cursor := c, out := [], reads := 1, requests := [],
                     restWrites := ws } := by
  unfold xorcat
  rw [if_pos ⟨hL, hc⟩]
  rcases hfirst with rfl | ⟨rest, rfl⟩
  · rfl
  · simp [xorcatLoop]

/-- A first read of 0 bytes under the key `[0x01, 0x02, 0x03]` at cursor 2,
with further reads and writes scripted and not used, and without any fuel. -/
theorem xorcat_empty_input_witness :
    xorcat [1, 2, 3] 2 0 [ReadRes.data [], ReadRes.data [16]] [WriteRes.accepted 1]
      = Outcome.ok { rc := EXIT_SUCCESS, cursor := 2, out := [], reads := 1, requests := [],
                     restWrites := [WriteRes.accepted 1] } :=
  xorcat_empty_input [1, 2, 3] 2 0 [ReadRes.data [], ReadRes.data [16]] [WriteRes.accepted 1]
    (by decide) (by decide) (Or.inr ⟨[ReadRes.data [16]], rfl⟩)

/-! ## One write per block -/

/-- C17 on the code: with a key of `2^31` bytes and cursor 0, the read
of the block `[0x41, 0x42, 0x43]` is followed by no write request: the
do-while loop never ends and the call does not return. -/
theorem one_write_per_block_fails_on_huge_key :
    ¬ ∃ fuel run,
        xorcat hugeKey 0 fuel (readsOf [[65, 66, 67]]) [] = Outcome.ok run := by
  rintro ⟨fuel, run, h⟩
  have hr : readsOf [[65, 66, 67]] = [ReadRes.data [65, 66, 67], ReadRes.data []] := rfl
  rw [hr, xorcat_hugeKey fuel [65, 66, 67] [ReadRes.data []] [] (by simp)] at h
  exact absurd h (by simp)

/-- For every non-empty key of length `L < 2^31`, in every run
of `xorcat`, whatever the reads and writes give, the call returns and its
write requests are, in order, one per non-empty block read: the request for a
block holds all the transformed bytes of the block, so the lengths of the
requests are the lengths of the blocks. The run ends with one more read, which
delivers no block, or, when the last request fails, with that request. -/
theorem one_write_per_block (key : List Nat) (c fuel : Nat) (rs : List ReadRes)
    (ws : List WriteRes) (hL : 0 < key.length) (hL32 : key.length < 2147483648)
    (hc : c < key.length) (hfuel : ∀ b, ReadRes.data b ∈ rs → b.length ≤ fuel) :
    ∃ (run : Run) (bs : List (List Nat)) (tail : List ReadRes),
      xorcat key c fuel rs ws = Outcome.ok run
      ∧ rs = bs.map ReadRes.data ++ tail ∧ (∀ b ∈ bs, b ≠ [])
      ∧ run.requests = xorBlocks key c bs
      ∧ run.requests.map List.length = bs.map List.length
      ∧ ((run.reads = bs.length + 1 ∧ ∀ b t, tail = ReadRes.data b :: t → b = [])
          ∨ (run.reads = bs.length ∧ run.rc = EXIT_FAILURE ∧ bs ≠ [])) := by
  obtain ⟨run, hrun⟩ := xorcat_returns key c fuel rs ws hL32 hc hfuel
  have hloop : xorcatLoop key c fuel rs ws c = Outcome.ok run := by
    have h := hrun
    unfold xorcat at h
    rwa [if_pos ⟨hL, hc⟩] at h
  obtain ⟨bs, tail, hrs, hbs, hreq, hreads⟩ := xorcatLoop_requests key c fuel rs ws c run hc hloop
  exact ⟨run, bs, tail, hrun, hrs, hbs, hreq, by rw [hreq, xorBlocks_map_length], hreads⟩

/-- A block of 5 bytes under a key of 2 bytes (three chunks, one request),
written short, then a block of 1 byte, then the end of input. -/
theorem one_write_per_block_witness :
    (∃ (run : Run) (bs : List (List Nat)) (tail : List ReadRes),
      xorcat [1, 2] 1 8 (readsOf [[16, 32, 48, 64, 80], [96]]) [WriteRes.accepted 2]
        = Outcome.ok run
      ∧ readsOf [[16, 32, 48, 64, 80], [96]] = bs.map ReadRes.data ++ tail
      ∧ (∀ b ∈ bs, b ≠ [])
      ∧ run.requests = xorBlocks [1, 2] 1 bs
      ∧ run.requests.map List.length = bs.map List.length
      ∧ ((run.reads = bs.length + 1 ∧ ∀ b t, tail = ReadRes.data b :: t → b = [])
          ∨ (run.reads = bs.length ∧ run.rc = EXIT_FAILURE ∧ bs ≠ [])))
    ∧ xorcat [1, 2] 1 8 (readsOf [[16, 32, 48, 64, 80], [96]]) [WriteRes.accepted 2]
        = Outcome.ok { rc := 0, cursor := 1, out := [18, 33, 97], reads := 3,
                       requests := [[18, 33, 50, 65, 82], [97]], restWrites := [] } :=
  ⟨one_write_per_block [1, 2] 1 8 (readsOf [[16, 32, 48, 64, 80], [96]]) [WriteRes.accepted 2]
      (by decide) (by decide) (by decide)
      (by
        intro b hb
        simp only [readsOf, List.map_cons, List.map_nil, List.cons_append, List.nil_append,
          List.mem_cons, ReadRes.data.injEq, List.mem_singleton, List.not_mem_nil,
          or_false] at hb
        rcases hb with rfl | rfl | rfl <;> decide),
    by decide⟩

/-! ## Asserts, bounds and progress of the do-while loop -/

/-- One iteration under a key shorter than `2^31` bytes, started with the
loop invariant: what it computes and that the invariant holds again. -/
theorem chunkStep_next (key : List Nat) (res : Nat) (buffer : List Nat) (idx ki : Nat)
    (hL32 : key.length < 2147483648) (hlen : buffer.length = res) (hidx : idx < res)
    (hki : ki < key.length) :
    ∃ (n : Nat) (buffer1 : List Nat), 1 ≤ n ∧ xor_bytes key.length ki res idx = (n : Int)
      ∧ idx + n ≤ res ∧ ki + n ≤ key.length
      ∧ chunkStep key res buffer idx ki = .ok (buffer1, idx + n, (ki + n) % key.length)
      ∧ buffer1.length = res ∧ (ki + n) % key.length < key.length
      ∧ (idx + n < res → (ki + n) % key.length = 0) := by
  obtain ⟨n, hn1, hxb, hn2, hn3, hn4, hstep⟩ :=
    chunkStep_spec key res buffer idx ki hL32 hlen hidx hki
  refine ⟨n, _, hn1, hxb, hn2, hn3, hstep, ?_, Nat.mod_lt _ (by omega), ?_⟩
  · simp only [List.length_append, List.length_take, List.length_drop, xorFrom_length]
    omega
  · intro h
    rw [hn4 h]
    exact Nat.mod_self _

/-- C18: for every key with `1 <= L < 2^31` and every block with
`1 <= res <= BUF_SIZE`, no assertion of the processing loop fails and no
access leaves its array. In every iteration of the do-while loop, started
with `xor_idx < res` and `key_iter` inside the key, the chunk of `n` bytes
has `xor_idx + n <= res` (the assert of line 58, and the bound of the buffer
indices `xor_idx .. xor_idx + n - 1`) and `key_iter + n <= L` (the assert
of line 60 at each of the `n` key reads), the iteration ends without abort
or fault, and it leaves `key_iter` inside the key. The loop is left with
`xor_idx = res` (the assert of line 68), and whole calls of `xorcat` return. -/
theorem asserts_never_fail (key : List Nat) (res fuel : Nat)
    (hL1 : 1 ≤ key.length) (hL32 : key.length < 2147483648)
    (hres1 : 1 ≤ res) (hres2 : res ≤ BUF_SIZE) (hfuel : BUF_SIZE ≤ fuel) :
    (∀ (buffer : List Nat) (idx ki : Nat),
        buffer.length = res → idx < res → ki < key.length →
        ∃ (n : Nat) (buffer1 : List Nat),
          xor_bytes key.length ki res idx = (n : Int) ∧ 1 ≤ n
          ∧ idx + n ≤ res ∧ ki + n ≤ key.length
          ∧ chunkStep key res buffer idx ki = Outcome.ok (buffer1, idx + n, (ki + n) % key.length)
          ∧ buffer1.length = res ∧ (ki + n) % key.length < key.length)
    ∧ (∀ (block : List Nat) (c : Nat), block.length = res → c < key.length →
        ∃ buffer cursor, chunkLoop key res fuel block 0 c = Outcome.ok (buffer, res, cursor)
          ∧ buffer.length = res ∧ cursor < key.length)
    ∧ (∀ (c : Nat) (rs : List ReadRes) (ws : List WriteRes), c < key.length →
        (∀ b, ReadRes.data b ∈ rs → b.length ≤ BUF_SIZE) →
        ∃ run, xorcat key c fuel rs ws = Outcome.ok run) := by
  have hL : 0 < key.length := hL1
  refine ⟨?_, ?_, ?_⟩
  · intro buffer idx ki hlen hidx hki
    obtain ⟨n, buffer1, h1, h2, h3, h4, h5, h6, h7, _⟩ :=
      chunkStep_next key res buffer idx ki hL32 hlen hidx hki
    exact ⟨n, buffer1, h2, h1, h3, h4, h5, h6, h7⟩
  · intro block c hlen hc
    have hb : block ≠ [] := by
      intro h
      rw [h] at hlen
      simp at hlen
      omega
    have h := chunkLoop_total key fuel block c hL32 hc hb (by omega)
    rw [hlen] at h
    exact ⟨_, _, h, by rw [xorFrom_length, hlen], Nat.mod_lt _ hL⟩
  · intro c rs ws hc hrs
    exact xorcat_returns key c fuel rs ws hL32 hc (fun b hb => le_trans (hrs b hb) hfuel)

/-- A key of 3 bytes and blocks of 7 bytes: the statement for them, and the
run of the loop from cursor 2, which ends with `xor_idx = 7`. -/
theorem asserts_never_fail_witness :
    ((∀ (buffer : List Nat) (idx ki : Nat),
        buffer.length = 7 → idx < 7 → ki < [1, 2, 3].length →
        ∃ (n : Nat) (buffer1 : List Nat),
          xor_bytes [1, 2, 3].length ki 7 idx = (n : Int) ∧ 1 ≤ n
          ∧ idx + n ≤ 7 ∧ ki + n ≤ [1, 2, 3].length
          ∧ chunkStep [1, 2, 3] 7 buffer idx ki
              = Outcome.ok (buffer1, idx + n, (ki + n) % [1, 2, 3].length)
          ∧ buffer1.length = 7 ∧ (ki + n) % [1, 2, 3].length < [1, 2, 3].length)
      ∧ (∀ (block : List Nat) (c : Nat), block.length = 7 → c < [1, 2, 3].length →
        ∃ buffer cursor, chunkLoop [1, 2, 3] 7 4096 block 0 c = Outcome.ok (buffer, 7, cursor)
          ∧ buffer.length = 7 ∧ cursor < [1, 2, 3].length)
      ∧ (∀ (c : Nat) (rs : List ReadRes) (ws : List WriteRes), c < [1, 2, 3].length →
        (∀ b, ReadRes.data b ∈ rs → b.length ≤ BUF_SIZE) →
        ∃ run, xorcat [1, 2, 3] c 4096 rs ws = Outcome.ok run))
    ∧ chunkLoop [1, 2, 3] 7 4096 [10, 20, 30, 40, 50, 60, 70] 0 2
        = Outcome.ok ([9, 21, 28, 43, 51, 62, 69], 7, 0)
    ∧ chunkStep [1, 2, 3] 7 [10, 20, 30, 40, 50, 60, 70] 0 2
        = Outcome.ok ([9, 20, 30, 40, 50, 60, 70], 1, 0) :=
  ⟨asserts_never_fail [1, 2, 3] 7 4096 (by decide) (by decide) (by decide) (by decide)
      (by decide),
    by decide, by decide⟩

/-- C19: for every key with `1 <= L < 2^31` and every block of `res >= 1`
bytes, each iteration of the do-while loop, started with `xor_idx < res` and
`key_iter` inside the key, has `xor_bytes >= 1` and ends with `xor_idx`
larger by `xor_bytes`, at most `res`, so that the next iteration starts the
same way; when it is not the last (`xor_idx < res` at its end), it ends with
`key_iter` at the key's start. The loop, which runs an iteration and then
tests `xor_idx < res`, is left after at most `res` iterations. -/
theorem chunk_loop_progress (key : List Nat) (res : Nat)
    (hL1 : 1 ≤ key.length) (hL32 : key.length < 2147483648) (hres1 : 1 ≤ res) :
    (∀ (buffer : List Nat) (idx ki : Nat),
        buffer.length = res → idx < res → ki < key.length →
        ∃ (buffer1 : List Nat) (idx1 ki1 : Nat),
          chunkStep key res buffer idx ki = Outcome.ok (buffer1, idx1, ki1)
          ∧ 1 ≤ xor_bytes key.length ki res idx
          ∧ (idx1 : Int) = (idx : Int) + xor_bytes key.length ki res idx
          ∧ idx < idx1 ∧ idx1 ≤ res
          ∧ buffer1.length = res ∧ ki1 < key.length
          ∧ (idx1 < res → ki1 = 0))
    ∧ (∀ (fuel : Nat) (buffer : List Nat) (idx ki : Nat),
        chunkLoop key res (fuel + 1) buffer idx ki
          = chunkNext key res fuel (chunkStep key res buffer idx ki))
    ∧ (∀ (block : List Nat) (c : Nat), block.length = res → c < key.length →
        ∃ buffer cursor, chunkLoop key res res block 0 c = Outcome.ok (buffer, res, cursor)) := by
  have hL : 0 < key.length := hL1
  refine ⟨?_, fun fuel buffer idx ki => chunkLoop_succ key res fuel buffer idx ki, ?_⟩
  · intro buffer idx ki hlen hidx hki
    obtain ⟨n, buffer1, h1, h2, h3, _, h5, h6, h7, h8⟩ :=
      chunkStep_next key res buffer idx ki hL32 hlen hidx hki
    refine ⟨buffer1, idx + n, (ki + n) % key.length, h5, ?_, ?_, by omega, h3, h6, h7, h8⟩
    · rw [h2]
      omega
    · rw [h2]
      omega
  · intro block c hlen hc
    have hb : block ≠ [] := by
      intro h
      rw [h] at hlen
      simp at hlen
      omega
    have h := chunkLoop_total key res block c hL32 hc hb (by omega)
    rw [hlen] at h
    exact ⟨_, _, h⟩

/-- A key of 3 bytes and blocks of 7 bytes: the statement for them, and the
three iterations from cursor 2, of 1, 3 and 3 bytes, the first two ending
with the cursor at 0. -/
theorem chunk_loop_progress_witness :
    ((∀ (buffer : List Nat) (idx ki : Nat),
        buffer.length = 7 → idx < 7 → ki < [1, 2, 3].length →
        ∃ (buffer1 : List Nat) (idx1 ki1 : Nat),
          chunkStep [1, 2, 3] 7 buffer idx ki = Outcome.ok (buffer1, idx1, ki1)
          ∧ 1 ≤ xor_bytes [1, 2, 3].length ki 7 idx
          ∧ (idx1 : Int) = (idx : Int) + xor_bytes [1, 2, 3].length ki 7 idx
          ∧ idx < idx1 ∧ idx1 ≤ 7
          ∧ buffer1.length = 7 ∧ ki1 < [1, 2, 3].length
          ∧ (idx1 < 7 → ki1 = 0))
      ∧ (∀ (fuel : Nat) (buffer : List Nat) (idx ki : Nat),
        chunkLoop [1, 2, 3] 7 (fuel + 1) buffer idx ki
          = chunkNext [1, 2, 3] 7 fuel (chunkStep [1, 2, 3] 7 buffer idx ki))
      ∧ (∀ (block : List Nat) (c : Nat), block.length = 7 → c < [1, 2, 3].length →
        ∃ buffer cursor, chunkLoop [1, 2, 3] 7 7 block 0 c = Outcome.ok (buffer, 7, cursor)))
    ∧ chunkStep [1, 2, 3] 7 [10, 20, 30, 40, 50, 60, 70] 0 2
        = Outcome.ok ([9, 20, 30, 40, 50, 60, 70], 1, 0)
    ∧ chunkStep [1, 2, 3] 7 [9, 20, 30, 40, 50, 60, 70] 1 0
        = Outcome.ok ([9, 21, 28, 43, 50, 60, 70], 4, 0)
    ∧ chunkStep [1, 2, 3] 7 [9, 21, 28, 43, 50, 60, 70] 4 0
        = Outcome.ok ([9, 21, 28, 43, 51, 62, 69], 7, 0)
    ∧ chunkLoop [1, 2, 3] 7 3 [10, 20, 30, 40, 50, 60, 70] 0 2
        = Outcome.ok ([9, 21, 28, 43, 51, 62, 69], 7, 0) :=
  ⟨chunk_loop_progress [1, 2, 3] 7 (by decide) (by decide) (by decide),
    by decide, by decide, by decide, by decide⟩

/-! ## Runs that return, for keys of any length -/

theorem sinkTakes_nil_right (ws : List WriteRes) : sinkTakes ws [] = [] := by
  cases ws with
  | nil => rfl
  | cons w ws1 => cases w <;> rfl

theorem xorBlocks_flatten (key : List Nat) (p : Nat) (blocks : List (List Nat)) :
    (xorBlocks key p blocks).flatten = xorFrom key p blocks.flatten := by
  induction blocks generalizing p with
  | nil => rfl
  | cons b bs ih => simp only [xorBlocks, List.flatten_cons, ih, xorFrom_append]

theorem sinkTakes_full (key : List Nat) (p : Nat) (ws : List WriteRes)
    (blocks : List (List Nat)) (hw : fullWrites ws blocks = true) :
    sinkTakes ws (xorBlocks key p blocks) = xorFrom key p blocks.flatten := by
  induction blocks generalizing p ws with
  | nil => rw [xorBlocks, sinkTakes_nil_right]; rfl
  | cons b bs ih =>
    cases ws with
    | nil =>
      simp only [xorBlocks, sinkTakes, List.flatten_cons, xorFrom_append]
      rw [ih (p + b.length) [] rfl]
    | cons w ws1 =>
      cases w with
      | error => simp [fullWrites] at hw
      | accepted n =>
        simp only [fullWrites, Bool.and_eq_true, decide_eq_true_eq] at hw
        simp only [xorBlocks, sinkTakes, List.flatten_cons, xorFrom_append]
        rw [ih (p + b.length) ws1 hw.2,
          List.take_of_length_le (by rw [xorFrom_length]; exact hw.1)]

theorem fullWrites_no_error (ws : List WriteRes) (blocks : List (List Nat))
    (hw : fullWrites ws blocks = true) : ∀ w ∈ ws.take blocks.length, w ≠ WriteRes.error := by
  induction blocks generalizing ws with
  | nil => simp
  | cons b bs ih =>
    cases ws with
    | nil => simp
    | cons w ws1 =>
      cases w with
      | error => simp [fullWrites] at hw
      | accepted n =>
        simp only [fullWrites, Bool.and_eq_true, decide_eq_true_eq] at hw
        intro w hmem
        simp only [List.length_cons, List.take_succ_cons, List.mem_cons] at hmem
        rcases hmem with rfl | hmem
        · simp
        · exact ih ws1 hw.2 w hmem

/-- The block loop over blocks none of whose writes fails, for a key of any
length: when the loop returns, the blocks were transformed and written one
after the other and the rest of the run is the run over the rest of the
reads. -/
theorem xorcatLoop_blocks_ok (key : List Nat) (start fuel : Nat) (hL : 0 < key.length)
    (blocks : List (List Nat)) (tail : List ReadRes) (ws : List WriteRes) (p : Nat) (run : Run)
    (hb : ∀ b ∈ blocks, b ≠ [])
    (hw : ∀ w ∈ ws.take blocks.length, w ≠ WriteRes.error)
    (h : xorcatLoop key start fuel (blocks.map ReadRes.data ++ tail) ws (p % key.length)
      = .ok run) :
    ∃ r, xorcatLoop key start fuel tail (ws.drop blocks.length)
          ((p + blocks.flatten.length) % key.length) = .ok r
      ∧ run = { r with out := sinkTakes ws (xorBlocks key p blocks) ++ r.out,
                       reads := r.reads + blocks.length,
                       requests := xorBlocks key p blocks ++ r.requests } := by
  induction blocks generalizing ws p run with
  | nil =>
    refine ⟨run, by simpa using h, ?_⟩
    simp [xorBlocks, sinkTakes_nil_right]
  | cons b bs ih =>
    have hbne : b ≠ [] := hb b (List.mem_cons_self _ _)
    have hbs : ∀ x ∈ bs, x ≠ [] := fun x hx => hb x (List.mem_cons_of_mem _ hx)
    have hne : b.length ≠ 0 := fun h0 => hbne (List.length_eq_zero.mp h0)
    have hspec := chunkLoop_spec key b.length fuel [] b (p % key.length) (Nat.mod_lt _ hL) hbne
      (by simp)
    simp only [List.nil_append, List.length_nil] at hspec
    simp only [List.map_cons, List.cons_append] at h
    rcases hspec with hok | ⟨hdiv, _⟩
    · rw [xorcatLoop_block key start fuel b _ ws _ hbne hok, xorFrom_mod, Nat.mod_add_mod] at h
      have hlen : p + (b :: bs).flatten.length = p + b.length + bs.flatten.length := by
        simp [Nat.add_assoc]
      cases ws with
      | nil =>
        obtain ⟨r1, hr1, hrun⟩ := Outcome.map_eq_ok _ _ _ h
        obtain ⟨r, hr, hr1eq⟩ := ih [] (p + b.length) r1 hbs (by simp) hr1
        refine ⟨r, by rw [hlen]; simpa using hr, ?_⟩
        rw [hrun, hr1eq]
        simp [Run.after, xorBlocks, sinkTakes, Nat.add_assoc, Nat.add_comm 1]
      | cons w ws1 =>
        cases w with
        | error =>
          exact absurd rfl (hw WriteRes.error (by simp))
        | accepted n =>
          obtain ⟨r1, hr1, hrun⟩ := Outcome.map_eq_ok _ _ _ h
          have hw1 : ∀ w ∈ ws1.take bs.length, w ≠ WriteRes.error := by
            intro w hmem
            exact hw w (by simp [hmem])
          obtain ⟨r, hr, hr1eq⟩ := ih ws1 (p + b.length) r1 hbs hw1 hr1
          refine ⟨r, by rw [hlen]; simpa using hr, ?_⟩
          rw [hrun, hr1eq]
          simp [Run.after, xorBlocks, sinkTakes, Nat.add_assoc, Nat.add_comm 1]
    · rw [xorcatLoop] at h
      simp only [if_neg hne, hdiv] at h
      exact absurd h (by simp)

/-- A call whose reads deliver the given blocks first, none of their writes
failing, for a key of any length, when the call returns. -/
theorem xorcat_blocks_ok (key : List Nat) (c fuel : Nat)
    (blocks : List (List Nat)) (tail : List ReadRes) (ws : List WriteRes) (run : Run)
    (hb : ∀ b ∈ blocks, b ≠ [])
    (hw : ∀ w ∈ ws.take blocks.length, w ≠ WriteRes.error)
    (h : xorcat key c fuel (blocks.map ReadRes.data ++ tail) ws = .ok run) :
    c < key.length ∧
    ∃ r, xorcatLoop key c fuel tail (ws.drop blocks.length)
          ((c + blocks.flatten.length) % key.length) = .ok r
      ∧ run = { r with out := sinkTakes ws (xorBlocks key c blocks) ++ r.out,
                       reads := r.reads + blocks.length,
                       requests := xorBlocks key c blocks ++ r.requests } := by
  unfold xorcat at h
  by_cases hpre : 0 < key.length ∧ c < key.length
  · rw [if_pos hpre] at h
    refine ⟨hpre.2, ?_⟩
    have h1 : xorcatLoop key c fuel (blocks.map ReadRes.data ++ tail) ws (c % key.length)
        = .ok run := by
      rw [Nat.mod_eq_of_lt hpre.2]
      exact h
    exact xorcatLoop_blocks_ok key c fuel hpre.1 blocks tail ws c run hb hw h1
  · rw [if_neg hpre] at h
    exact absurd h (by simp)

/-- A call whose reads deliver the given blocks and then the end of input,
all written in full, for a key of any length, when the call returns. -/
theorem xorcat_readsOf_ok (key : List Nat) (c fuel : Nat) (blocks : List (List Nat))
    (ws : List WriteRes) (run : Run) (hb : ∀ b ∈ blocks, b ≠ [])
    (hw : fullWrites ws blocks = true)
    (h : xorcat key c fuel (readsOf blocks) ws = .ok run) :
    run = { rc := EXIT_SUCCESS, cursor := (c + blocks.flatten.length) % key.length,
            out := xorFrom key c blocks.flatten, reads := blocks.length + 1,
            requests := xorBlocks key c blocks, restWrites := ws.drop blocks.length } := by
  unfold readsOf at h
  obtain ⟨_, r, hr, hrun⟩ := xorcat_blocks_ok key c fuel blocks _ ws run hb
    (fullWrites_no_error ws blocks hw) h
  simp only [xorcatLoop, List.length_nil, if_true, Outcome.ok.injEq] at hr
  subst hr
  rw [hrun, sinkTakes_full key c ws blocks hw]
  simp [Nat.add_comm]

/-! ## The long key -/

theorem longKey_length : longKey.length = 4294967297 := by
  unfold longKey
  rw [List.length_cons, List.length_replicate]

theorem longKey_pos : 0 < longKey.length ∧ 0 < longKey.length := by
  rw [longKey_length]
  decide

theorem longKey_stuck_at_one :
    toInt32 ((longKey.length : Int) - ((1 : Nat) : Int)) ≤ 0 := by
  rw [longKey_length]
  decide

theorem xorFrom_longKey_one (b : Nat) : xorFrom longKey 0 [b] = [xorByte b 0] := by
  simp only [xorFrom, Nat.zero_mod]
  rfl

/-- Under the long key from its start, an iteration of the do-while loop
takes one byte: `remaining_keylen` is `(int)(2^32 + 1) = 1`. -/
theorem chunkStep_longKey (res : Nat) (buffer : List Nat) (hres : 0 < res)
    (hlen : buffer.length = res) :
    chunkStep longKey res buffer 0 0
      = .ok (xorFrom longKey 0 (buffer.take 1) ++ buffer.drop 1, 1, 1) := by
  have hxb : xor_bytes longKey.length 0 res 0 = 1 := by
    unfold xor_bytes
    rw [longKey_length]
    have ht : toInt32 (((4294967297 : Nat) : Int) - ((0 : Nat) : Int)) = 1 := by decide
    simp only [ht]
    rw [if_neg (by omega)]
  have hchunk := xorChunk_spec longKey 1 [] buffer 0 (by omega)
    (by rw [longKey_length]; decide)
  simp only [List.nil_append, List.length_nil, Nat.zero_add] at hchunk
  have hne : ¬ (1 = longKey.length) := by
    rw [longKey_length]
    decide
  unfold chunkStep
  simp only [hxb]
  rw [if_pos (by omega)]
  have htoNat : (((0 : Nat) : Int) + 1 - ((0 : Nat) : Int)).toNat = 1 := by decide
  rw [htoNat, hchunk]
  simp only [hne, if_false]

/-- Under the long key from its start, the do-while loop ends on a block of
one byte. -/
theorem chunkLoop_longKey_one (b fuel : Nat) :
    chunkLoop longKey [b].length (fuel + 1) [b] 0 0
      = .ok (xorFrom longKey 0 [b], [b].length, (0 + [b].length) % longKey.length) := by
  rw [chunkLoop_succ, chunkStep_longKey [b].length [b] (by simp) rfl]
  have hmod : (0 + [b].length) % longKey.length = 1 := by
    rw [longKey_length]
    rfl
  rw [hmod]
  simp [chunkNext]

/-- Under the long key from its start, the do-while loop never ends on a
block of two bytes: after the first byte `remaining_keylen` is
`(int)(2^32) = 0`. -/
theorem chunkLoop_longKey_two (b1 b2 fuel : Nat) :
    chunkLoop longKey [b1, b2].length fuel [b1, b2] 0 0 = .diverged := by
  cases fuel with
  | zero => rfl
  | succ fuel =>
    rw [chunkLoop_succ, chunkStep_longKey [b1, b2].length [b1, b2] (by simp) rfl]
    have hlt : 1 < [b1, b2].length := by simp
    simp only [chunkNext, hlt, if_true]
    exact chunkLoop_stuck longKey _ fuel _ 1 1 (by rw [longKey_length]; decide) hlt
      longKey_stuck_at_one

/-! ## The bytes emitted -/

/-- When the block loop returns, the bytes emitted are the output of the run. -/
theorem emittedLoop_of_ok (key : List Nat) (start fuel : Nat) (rs : List ReadRes)
    (ws : List WriteRes) (ki : Nat) (run : Run)
    (h : xorcatLoop key start fuel rs ws ki = .ok run) :
    emittedLoop key fuel rs ws ki = run.out := by
  induction rs generalizing ws ki run with
  | nil =>
    simp only [xorcatLoop, Outcome.ok.injEq] at h
    subst h
    rfl
  | cons r rs ih =>
    cases r with
    | error =>
      simp only [xorcatLoop, Outcome.ok.injEq] at h
      subst h
      rfl
    | data block =>
      rw [xorcatLoop] at h
      rw [emittedLoop]
      by_cases hz : block.length = 0
      · simp only [hz, if_true, Outcome.ok.injEq] at h ⊢
        subst h
        rfl
      · simp only [hz, if_false] at h ⊢
        cases hloop : chunkLoop key block.length fuel block 0 ki with
        | ok a =>
          obtain ⟨buffer, idx, ki1⟩ := a
          simp only [hloop] at h ⊢
          by_cases hidx : idx = block.length
          · simp only [hidx, if_true] at h ⊢
            cases ws with
            | nil =>
              obtain ⟨r1, hr1, hrun⟩ := Outcome.map_eq_ok _ _ _ h
              simp only [ih [] ki1 r1 hr1, hrun, Run.after]
            | cons w ws1 =>
              cases w with
              | error =>
                simp only [Outcome.ok.injEq] at h
                subst h
                rfl
              | accepted n =>
                obtain ⟨r1, hr1, hrun⟩ := Outcome.map_eq_ok _ _ _ h
                simp only [ih ws1 ki1 r1 hr1, hrun, Run.after]
          · simp only [hidx, if_false] at h
            exact absurd h (by simp)
        | abort => simp [hloop] at h
        | fault => simp [hloop] at h
        | diverged => simp [hloop] at h

/-- When a call returns, the bytes emitted are the output of the run. -/
theorem emitted_of_ok (key : List Nat) (c fuel : Nat) (rs : List ReadRes)
    (ws : List WriteRes) (run : Run) (h : xorcat key c fuel rs ws = .ok run) :
    emitted key c fuel rs ws = run.out := by
  unfold xorcat at h
  unfold emitted
  by_cases hpre : 0 < key.length ∧ c < key.length
  · rw [if_pos hpre] at h ⊢
    exact emittedLoop_of_ok key c fuel rs ws c run h
  · rw [if_neg hpre] at h
    exact absurd h (by simp)

theorem chunkLoop_longKey_byte (b fuel : Nat) :
    chunkLoop longKey 1 (fuel + 1) [b] 0 0 = .ok ([xorByte b 0], 1, 1) := by
  have h := chunkLoop_longKey_one b fuel
  have hmod : (0 + [b].length) % longKey.length = 1 := by
    rw [longKey_length]
    rfl
  rw [hmod, xorFrom_longKey_one] at h
  exact h

theorem chunkLoop_longKey_at_one (res fuel : Nat) (buffer : List Nat) (hres : 0 < res) :
    chunkLoop longKey res fuel buffer 0 1 = .diverged :=
  chunkLoop_stuck longKey res fuel buffer 0 1 (by rw [longKey_length]; decide) hres
    longKey_stuck_at_one

/-! ## Calls whose first do-while loops are known -/

/-- A call from the key's start whose only block has one byte, when the
do-while loop on it ends. -/
theorem xorcat_byte_of_loop (key : List Nat) (fuel b x : Nat) (hpos : 1 < key.length)
    (hloop : chunkLoop key 1 fuel [b] 0 0 = .ok ([x], 1, 1)) :
    xorcat key 0 fuel (readsOf [[b]]) []
      = .ok { rc := EXIT_SUCCESS, cursor := 1, out := [x], reads := 2,
              requests := [[x]], restWrites := [] } := by
  unfold xorcat
  rw [if_pos ⟨by omega, by omega⟩]
  show xorcatLoop key 0 fuel [ReadRes.data [b], ReadRes.data []] [] 0 = _
  rw [xorcatLoop]
  simp only [List.length_singleton, hloop]
  simp [xorcatLoop, Outcome.map, Run.after]

/-- A call whose first do-while loop never ends does not return. -/
theorem xorcat_diverged_of_loop (key : List Nat) (c fuel : Nat) (block : List Nat)
    (rs : List ReadRes) (ws : List WriteRes) (hc : c < key.length) (hb : block ≠ [])
    (hloop : chunkLoop key block.length fuel block 0 c = .diverged) :
    xorcat key c fuel (.data block :: rs) ws = .diverged := by
  have hne : block.length ≠ 0 := fun h0 => hb (List.length_eq_zero.mp h0)
  unfold xorcat
  rw [if_pos ⟨by omega, hc⟩, xorcatLoop]
  simp only [if_neg hne, hloop]

/-- A call from the key's start whose first block has one byte and whose
second do-while loop never ends does not return. -/
theorem xorcat_diverged_of_second_loop (key : List Nat) (fuel b x : Nat) (block : List Nat)
    (rs : List ReadRes) (hpos : 1 < key.length) (hb : block ≠ [])
    (hloop1 : chunkLoop key 1 fuel [b] 0 0 = .ok ([x], 1, 1))
    (hloop2 : chunkLoop key block.length fuel block 0 1 = .diverged) :
    xorcat key 0 fuel (.data [b] :: .data block :: rs) [] = .diverged := by
  have hne : block.length ≠ 0 := fun h0 => hb (List.length_eq_zero.mp h0)
  unfold xorcat
  rw [if_pos ⟨by omega, by omega⟩, xorcatLoop]
  simp only [List.length_singleton, hloop1]
  simp [xorcatLoop, hne, hloop2, Outcome.map]

/-- The bytes emitted by a call whose first do-while loop never ends: none. -/
theorem emitted_nil_of_loop (key : List Nat) (c fuel : Nat) (block : List Nat)
    (rs : List ReadRes) (ws : List WriteRes) (hb : block ≠ [])
    (hloop : chunkLoop key block.length fuel block 0 c = .diverged) :
    emitted key c fuel (.data block :: rs) ws = [] := by
  have hne : block.length ≠ 0 := fun h0 => hb (List.length_eq_zero.mp h0)
  unfold emitted
  split_ifs
  · rw [emittedLoop]
    simp only [if_neg hne, hloop]
  · rfl

/-- The bytes emitted by a call from the key's start whose first block has
one byte and whose second do-while loop never ends: the first block. -/
theorem emitted_of_second_loop (key : List Nat) (fuel b x : Nat) (block : List Nat)
    (rs : List ReadRes) (hpos : 1 < key.length) (hb : block ≠ [])
    (hloop1 : chunkLoop key 1 fuel [b] 0 0 = .ok ([x], 1, 1))
    (hloop2 : chunkLoop key block.length fuel block 0 1 = .diverged) :
    emitted key 0 fuel (.data [b] :: .data block :: rs) [] = [x] := by
  have hne : block.length ≠ 0 := fun h0 => hb (List.length_eq_zero.mp h0)
  unfold emitted
  rw [if_pos ⟨by omega, by omega⟩, emittedLoop]
  simp only [List.length_singleton, hloop1]
  simp [emittedLoop, hne, hloop2]

theorem longKey_long : 1 < longKey.length := by
  rw [longKey_length]
  decide

/-- C2 on the code: under a key of `2^32 + 1` bytes from cursor 0, with
`M1 = [0x41]` and `M2 = [0x42]`, the call on `M1` returns success with
output `[0x41]` and leaves the cursor 1; the call on `M2` from cursor 1 never
returns, and neither does the single call on `M1 ++ M2`, delivered as one
block. The two calls of the split emit `[0x41]` in all, the single call
emits nothing. -/
theorem composability_breaks_on_long_key :
    (∀ fuel, xorcat longKey 0 (fuel + 1) (readsOf [[65]]) []
        = Outcome.ok { rc := EXIT_SUCCESS, cursor := 1, out := [65], reads := 2,
                       requests := [[65]], restWrites := [] })
    ∧ (∀ fuel, xorcat longKey 1 fuel (readsOf [[66]]) [] = Outcome.diverged)
    ∧ (∀ fuel, xorcat longKey 0 fuel (readsOf [[65, 66]]) [] = Outcome.diverged)
    ∧ (∀ fuel, emitted longKey 0 (fuel + 1) (readsOf [[65]]) []
        ++ emitted longKey 1 (fuel + 1) (readsOf [[66]]) [] = [65])
    ∧ (∀ fuel, emitted longKey 0 fuel (readsOf [[65, 66]]) [] = []) := by
  have hbyte : ∀ fuel, xorcat longKey 0 (fuel + 1) (readsOf [[65]]) []
      = Outcome.ok { rc := EXIT_SUCCESS, cursor := 1, out := [65], reads := 2,
                     requests := [[65]], restWrites := [] } :=
    fun fuel => xorcat_byte_of_loop longKey (fuel + 1) 65 65 longKey_long
      (chunkLoop_longKey_byte 65 fuel)
  refine ⟨hbyte, ?_, ?_, ?_, ?_⟩
  · intro fuel
    exact xorcat_diverged_of_loop longKey 1 fuel [66] _ [] longKey_long (by simp)
      (chunkLoop_longKey_at_one _ fuel _ (by simp))
  · intro fuel
    exact xorcat_diverged_of_loop longKey 0 fuel [65, 66] _ [] longKey_pos.1 (by simp)
      (chunkLoop_longKey_two 65 66 fuel)
  · intro fuel
    rw [emitted_of_ok longKey 0 (fuel + 1) _ [] _ (hbyte fuel)]
    have h2 : emitted longKey 1 (fuel + 1) (readsOf [[66]]) [] = [] :=
      emitted_nil_of_loop longKey 1 (fuel + 1) [66] _ [] (by simp)
        (chunkLoop_longKey_at_one _ (fuel + 1) _ (by simp))
    rw [h2]
    rfl
  · intro fuel
    exact emitted_nil_of_loop longKey 0 fuel [65, 66] _ [] (by simp)
      (chunkLoop_longKey_two 65 66 fuel)

/-- C4 on the code: under a key of `2^32 + 1` bytes from cursor 0, the input
`[0x41, 0x42]` delivered as two blocks of one byte gets `[0x41]` written
before the call hangs, and delivered as one block of two bytes gets nothing
written before the call hangs; neither call returns, so neither leaves a
final cursor. -/
theorem chunking_breaks_on_long_key :
    (∀ fuel, xorcat longKey 0 fuel (readsOf [[65], [66]]) [] = Outcome.diverged)
    ∧ (∀ fuel, xorcat longKey 0 fuel (readsOf [[65, 66]]) [] = Outcome.diverged)
    ∧ (∀ fuel, emitted longKey 0 (fuel + 1) (readsOf [[65], [66]]) [] = [65])
    ∧ (∀ fuel, emitted longKey 0 fuel (readsOf [[65, 66]]) [] = []) := by
  refine ⟨?_, ?_, ?_, ?_⟩
  · intro fuel
    cases fuel with
    | zero =>
      exact xorcat_diverged_of_loop longKey 0 0 [65] _ [] longKey_pos.1 (by simp) rfl
    | succ fuel =>
      exact xorcat_diverged_of_second_loop longKey (fuel + 1) 65 65 [66] _ longKey_long
        (by simp) (chunkLoop_longKey_byte 65 fuel)
        (chunkLoop_longKey_at_one _ (fuel + 1) _ (by simp))
  · intro fuel
    exact xorcat_diverged_of_loop longKey 0 fuel [65, 66] _ [] longKey_pos.1 (by simp)
      (chunkLoop_longKey_two 65 66 fuel)
  · intro fuel
    exact emitted_of_second_loop longKey (fuel + 1) 65 65 [66] _ longKey_long (by simp)
      (chunkLoop_longKey_byte 65 fuel) (chunkLoop_longKey_at_one _ (fuel + 1) _ (by simp))
  · intro fuel
    exact emitted_nil_of_loop longKey 0 fuel [65, 66] _ [] (by simp)
      (chunkLoop_longKey_two 65 66 fuel)

/-! ## A failing read and a failing write, for keys of any length -/

end Xorcat
